import Mathlib

/-!
Verification of the intrusive doubly-linked list in `src/intrusive_list.h`.

We model the pointer structure with a shallow heap embedding: addresses are
natural numbers, `0` plays the role of `nullptr`, and the heap is a total
function from addresses to `Link` records holding the `prev`/`next` fields of
a `list_element`.  Every list operation of the C++ source is translated
statement by statement, preserving the order of reads and writes.
-/

namespace Intrusive

/-- The two pointer fields of a `list_element` (address `0` = `nullptr`). -/
structure Link where
  prev : Nat
  next : Nat
deriving DecidableEq

/-- A heap: every address holds a `Link`. -/
abbrev Heap := Nat → Link

/-- Store a whole `Link` at address `a`. -/
def Heap.set (h : Heap) (a : Nat) (l : Link) : Heap :=
  fun x => if x = a then l else h x

/-- Model of the C++ statement `a->next = v;`. -/
def Heap.setNext (h : Heap) (a v : Nat) : Heap :=
  h.set a { h a with next := v }

/-- Model of the C++ statement `a->prev = v;`. -/
def Heap.setPrev (h : Heap) (a v : Nat) : Heap :=
  h.set a { h a with prev := v }

@[simp] theorem Heap.setNext_next (h : Heap) (a v x : Nat) :
    ((h.setNext a v) x).next = if x = a then v else (h x).next := by
  unfold Heap.setNext Heap.set
  split <;> simp_all

@[simp] theorem Heap.setNext_prev (h : Heap) (a v x : Nat) :
    ((h.setNext a v) x).prev = (h x).prev := by
  unfold Heap.setNext Heap.set
  split <;> simp_all

@[simp] theorem Heap.setPrev_prev (h : Heap) (a v x : Nat) :
    ((h.setPrev a v) x).prev = if x = a then v else (h x).prev := by
  unfold Heap.setPrev Heap.set
  split <;> simp_all

@[simp] theorem Heap.setPrev_next (h : Heap) (a v x : Nat) :
    ((h.setPrev a v) x).next = (h x).next := by
  unfold Heap.setPrev Heap.set
  split <;> simp_all

/-!  The list operations, translated from `src/intrusive_list.h`.
A list object is represented by the address of its sentinel node `s`;
iterators are represented by the address of the element they point at. -/

/-- Body of the `list()` constructor (lines 113-117): the fresh sentinel is
made self-linked (`node->next = node; node->prev = node;`). -/
def mkList (h : Heap) (s : Nat) : Heap :=
  (h.setNext s s).setPrev s s

/-- Lines 137-139, `clear()`: `node->prev = node->next = node;`
(the inner assignment to `next` happens first). -/
def clear (h : Heap) (s : Nat) : Heap :=
  (h.setNext s s).setPrev s s

/-- Lines 141-146, `push_back(element)`; `e` is the element's address. -/
def push_back (h : Heap) (s e : Nat) : Heap :=
  let h1 := h.setNext ((h s).prev) e
  let h2 := h1.setPrev e ((h1 s).prev)
  let h3 := h2.setNext e s
  h3.setPrev s e

/-- Lines 148-151, `pop_back()`. -/
def pop_back (h : Heap) (s : Nat) : Heap :=
  let h1 := h.setPrev s ((h ((h s).prev)).prev)
  h1.setNext ((h1 s).prev) s

/-- Lines 161-166, `push_front(element)` (pointer behaviour of the default-tag
instantiation, where the `static_cast<list_element<>*>` casts are identities). -/
def push_front (h : Heap) (s e : Nat) : Heap :=
  let h1 := h.setPrev ((h s).next) e
  let h2 := h1.setNext e ((h1 s).next)
  let h3 := h2.setNext s e
  h3.setPrev e s

/-- Lines 168-171, `pop_front()`. -/
def pop_front (h : Heap) (s : Nat) : Heap :=
  let h1 := h.setNext s ((h ((h s).next)).next)
  h1.setPrev ((h1 s).next) s

/-- Lines 19-28, `list_element::unlink()` (also run by the destructor). -/
def unlink (h : Heap) (e : Nat) : Heap :=
  let h1 := if (h e).prev ≠ 0 then h.setNext ((h e).prev) ((h e).next) else h
  let h2 := if (h1 e).next ≠ 0 then h1.setPrev ((h1 e).next) ((h1 e).prev) else h1
  let h3 := h2.setPrev e 0
  h3.setNext e 0

/-- Lines 201-208, `insert(pos, element)`: returns the new heap and the
address held by the returned iterator. -/
def insert (h : Heap) (pos e : Nat) : Heap × Nat :=
  let m := (h ((h pos).next)).prev
  let h1 := h.setNext ((h m).prev) e
  let h2 := h1.setPrev e ((h1 m).prev)
  let h3 := h2.setPrev m e
  let h4 := h3.setNext e m
  (h4, (h4 m).prev)

/-- Lines 210-217, `erase(pos)`: returns the new heap and the address held by
the returned iterator. -/
def erase (h : Heap) (pos : Nat) : Heap × Nat :=
  let m := (h ((h pos).next)).prev
  let h1 := h.setNext ((h m).prev) ((h m).next)
  let h2 := h1.setPrev ((h1 m).next) ((h1 m).prev)
  let it := (h2 m).next
  (unlink h2 m, it)

/-- Lines 219-233, `splice(pos, other, first, last)` — the body never uses the
`other` list header, only the iterator addresses. -/
def splice (h : Heap) (pos first lst : Nat) : Heap :=
  if first = lst then h
  else
    let m := (h ((h pos).next)).prev
    let prev_last := (h lst).prev
    let mut_last := (h ((h lst).prev)).next
    let mut_first := (h ((h first).prev)).next
    let h1 := h.setPrev mut_last ((h mut_first).prev)
    let h2 := h1.setNext ((h1 mut_first).prev) mut_last
    let h3 := h2.setNext prev_last m
    let h4 := h3.setPrev mut_first ((h3 m).prev)
    let h5 := h4.setPrev ((h4 prev_last).next) prev_last
    h5.setNext ((h5 mut_first).prev) mut_first

/-- Line 181-183, `empty()`. -/
def emptyq (h : Heap) (s : Nat) : Bool :=
  (h s).next = s

/-- Lines 173-175, `front()`: address of the first element. -/
def frontA (h : Heap) (s : Nat) : Nat :=
  (h s).next

/-- Lines 153-155, `back()`: address of the last element. -/
def backA (h : Heap) (s : Nat) : Nat :=
  (h s).prev

/-!  The ring abstraction.  `chain h a xs b` says that following `next` from
`a` passes exactly through the addresses of `xs` and then reaches `b`, with
every `prev` pointer along the way pointing back at its predecessor. -/

/-- Doubly-linked segment predicate: `a` links forward through `xs` to `b`,
and `prev` pointers mirror the `next` pointers. -/
def chain (h : Heap) : Nat → List Nat → Nat → Prop
  | a, [], b => (h a).next = b ∧ (h b).prev = a
  | a, x :: xs, b => (h a).next = x ∧ (h x).prev = a ∧ chain h x xs b

instance chainDecidable (h : Heap) (a : Nat) (xs : List Nat) (b : Nat) :
    Decidable (chain h a xs b) :=
  match xs with
  | [] => inferInstanceAs (Decidable (_ ∧ _))
  | x :: xs =>
      have : Decidable (chain h x xs b) := chainDecidable h x xs b
      inferInstanceAs (Decidable (_ ∧ _ ∧ _))

/-- A consistent doubly-linked ring: sentinel `s` plus elements `xs`, all
distinct, all non-null, circularly chained in both directions. -/
def ringInv (h : Heap) (s : Nat) (xs : List Nat) : Prop :=
  0 ∉ s :: xs ∧ (s :: xs).Nodup ∧ chain h s xs s

instance (h : Heap) (s : Nat) (xs : List Nat) : Decidable (ringInv h s xs) :=
  inferInstanceAs (Decidable (_ ∧ _ ∧ _))

/-- The last address of `a :: xs` (the predecessor of the node after the
segment `xs` when chained from `a`). -/
def lastA (a : Nat) : List Nat → Nat
  | [] => a
  | x :: xs => lastA x xs

/-- The first address of `xs ++ [b]`. -/
def headA (xs : List Nat) (b : Nat) : Nat :=
  match xs with
  | [] => b
  | x :: _ => x

/-- Reflect a heap: swap every `prev` and `next` field. -/
def flipH (h : Heap) : Heap :=
  fun x => ⟨(h x).next, (h x).prev⟩

/-- Forward traversal (repeated `operator++`): collect addresses starting at
`cur`, following `next`, until the sentinel `stop` is reached (fuel-bounded). -/
def walkNext (h : Heap) (stop : Nat) : Nat → Nat → List Nat
  | _, 0 => []
  | cur, fuel + 1 =>
      if cur = stop then [] else cur :: walkNext h stop ((h cur).next) fuel

/-- Backward traversal (repeated `operator--`): collect addresses starting at
`cur`, following `prev`, until the sentinel `stop` is reached (fuel-bounded). -/
def walkPrev (h : Heap) (stop : Nat) : Nat → Nat → List Nat
  | _, 0 => []
  | cur, fuel + 1 =>
      if cur = stop then [] else cur :: walkPrev h stop ((h cur).prev) fuel

/-- Lines 131-135, move assignment `*this = std::move(r)`: `clear()` on the
target, then `std::swap(node, r_list.node)`.  Returns the heap together with
the two sentinel pointers (this.node, r_list.node) after the swap. -/
def moveAssign (h : Heap) (lnode rnode : Nat) : Heap × Nat × Nat :=
  (clear h lnode, rnode, lnode)

/-- Lines 121-123, move construction: the delegating `list()` constructor
allocates a fresh self-linked sentinel, then swaps it with the source's.
Returns the heap together with (this.node, r_list.node) after the swap. -/
def moveConstruct (h : Heap) (rnode fresh : Nat) : Heap × Nat × Nat :=
  (mkList h fresh, rnode, fresh)

/-!  Global states: a collection of lists sharing one heap, and the
transition system generated by the public mutating operations. -/

/-- A global state: the shared heap together with the tracked lists, each
given by its sentinel address and its current element sequence. -/
structure GS where
  heap : Heap
  lists : List (Nat × List Nat)

/-- The footprint of a collection of lists: every sentinel and element
address, in order. -/
def fpL (ls : List (Nat × List Nat)) : List Nat :=
  (ls.map fun p => p.1 :: p.2).flatten

/-- Well-formed collection: `0` is unused, all addresses across all lists are
pairwise distinct, and every tracked list is a consistent ring. -/
def WF (g : GS) : Prop :=
  0 ∉ fpL g.lists ∧ (fpL g.lists).Nodup ∧
    ∀ p ∈ g.lists, chain g.heap p.1 p.2 p.1

/-- The transition system of §4: starting from a heap with no tracked lists,
construct fresh lists and apply `push_back` / `push_front` / `insert` /
`erase` / `splice` with their preconditions (elements being pushed are
non-null and fresh; `splice` moves a non-empty contiguous range to a position
outside of it, in another list or in the same list).  The `permute`
constructor only re-orders the bookkeeping collection of tracked lists. -/
inductive Reach : GS → Prop
  | start (h : Heap) : Reach ⟨h, []⟩
  | permute (h : Heap) (ls ls' : List (Nat × List Nat)) :
      Reach ⟨h, ls⟩ → List.Perm ls ls' → Reach ⟨h, ls'⟩
  | newlist (h : Heap) (ls : List (Nat × List Nat)) (s : Nat) :
      Reach ⟨h, ls⟩ → s ≠ 0 → s ∉ fpL ls →
      Reach ⟨mkList h s, (s, []) :: ls⟩
  | pushBack (h : Heap) (ls : List (Nat × List Nat)) (s e : Nat)
      (xs : List Nat) :
      Reach ⟨h, (s, xs) :: ls⟩ → e ≠ 0 → e ∉ fpL ((s, xs) :: ls) →
      Reach ⟨push_back h s e, (s, xs ++ [e]) :: ls⟩
  | pushFront (h : Heap) (ls : List (Nat × List Nat)) (s e : Nat)
      (xs : List Nat) :
      Reach ⟨h, (s, xs) :: ls⟩ → e ≠ 0 → e ∉ fpL ((s, xs) :: ls) →
      Reach ⟨push_front h s e, (s, e :: xs) :: ls⟩
  | insertAt (h : Heap) (ls : List (Nat × List Nat)) (s e : Nat)
      (a b : List Nat) :
      Reach ⟨h, (s, a ++ b) :: ls⟩ → e ≠ 0 → e ∉ fpL ((s, a ++ b) :: ls) →
      Reach ⟨(insert h (headA b s) e).1, (s, a ++ e :: b) :: ls⟩
  | eraseAt (h : Heap) (ls : List (Nat × List Nat)) (s x : Nat)
      (a b : List Nat) :
      Reach ⟨h, (s, a ++ x :: b) :: ls⟩ →
      Reach ⟨(erase h x).1, (s, a ++ b) :: ls⟩
  | spliceDistinct (h : Heap) (ls : List (Nat × List Nat)) (s1 s2 f : Nat)
      (c d u v'' w : List Nat) :
      Reach ⟨h, (s1, c ++ d) :: (s2, u ++ (f :: v'') ++ w) :: ls⟩ →
      Reach ⟨splice h (headA d s1) f (headA w s2),
        (s1, c ++ (f :: v'') ++ d) :: (s2, u ++ w) :: ls⟩
  | spliceAfter (h : Heap) (ls : List (Nat × List Nat)) (s f : Nat)
      (u v'' w1 w2 : List Nat) :
      Reach ⟨h, (s, u ++ (f :: v'') ++ w1 ++ w2) :: ls⟩ →
      Reach ⟨splice h (headA w2 s) f (headA (w1 ++ w2) s),
        (s, u ++ w1 ++ (f :: v'') ++ w2) :: ls⟩
  | spliceBefore (h : Heap) (ls : List (Nat × List Nat)) (s f q : Nat)
      (c1 c2' v'' w : List Nat) :
      Reach ⟨h, (s, c1 ++ q :: (c2' ++ (f :: v'') ++ w)) :: ls⟩ →
      Reach ⟨splice h q f (headA w s),
        (s, c1 ++ (f :: v'') ++ q :: (c2' ++ w)) :: ls⟩

/-!  Tagged heaps.  `list_element<Tag>` gives a value one link field per tag;
we model the per-tag fields as one heap layer per tag (tag `0` stands for
`default_tag`).  A `Tag`-qualified access of the C++ source reads or writes
layer `t`; the unqualified member accesses and `static_cast<list_element<>*>`
casts in `push_front`/`insert` select the `default_tag` layer `0`. -/

/-- A tagged heap: layer `t` holds the `list_element<t>` subobjects. -/
abbrev THeap := Nat → Nat → Link

/-- Store a whole `Link` at address `a` of layer `t`. -/
def THeap.setT (h : THeap) (t a : Nat) (l : Link) : THeap :=
  fun u x => if u = t then (if x = a then l else h u x) else h u x

/-- `a->next = v;` through a `list_element<t>*`. -/
def THeap.setNextT (h : THeap) (t a v : Nat) : THeap :=
  h.setT t a { h t a with next := v }

/-- `a->prev = v;` through a `list_element<t>*`. -/
def THeap.setPrevT (h : THeap) (t a v : Nat) : THeap :=
  h.setT t a { h t a with prev := v }

/-- Lines 141-146 for `list<T, Tag>`: every access of `push_back` is
`Tag`-qualified (`static_cast<list_element<Tag>*>`,
`element.list_element<Tag>::prev/next`), so all four writes land in layer
`t`. -/
def push_backT (h : THeap) (t s e : Nat) : THeap :=
  let h1 := h.setNextT t ((h t s).prev) e
  let h2 := h1.setPrevT t e ((h1 t s).prev)
  let h3 := h2.setNextT t e s
  h3.setPrevT t s e

/-- Lines 161-166 for `list<T, Tag>`: as written, `push_front` casts the
element to `list_element<>*` (the default tag) and accesses `element.next` /
`element.prev` unqualified, so the element's writes land in layer `0` while
the sentinel-side writes land in layer `t`. -/
def push_frontT (h : THeap) (t s e : Nat) : THeap :=
  let h1 := h.setPrevT t ((h t s).next) e
  let h2 := h1.setNextT 0 e ((h1 t s).next)
  let h3 := h2.setNextT t s e
  h3.setPrevT 0 e s

/-- Lines 201-208 for `list<T, Tag>`: `insert` likewise casts the element to
`list_element<>*` and writes `element.prev` / `element.next` unqualified, so
the element's two writes land in layer `0`. -/
def insertT (h : THeap) (t pos e : Nat) : THeap × Nat :=
  let m := (h t ((h t pos).next)).prev
  let h1 := h.setNextT t ((h t m).prev) e
  let h2 := h1.setPrevT 0 e ((h1 t m).prev)
  let h3 := h2.setPrevT t m e
  let h4 := h3.setNextT 0 e m
  (h4, (h4 t m).prev)

/-!  Concrete heaps used by the witnesses and counterexamples. -/

/-- The all-null heap. -/
def H0 : Heap := fun _ => ⟨0, 0⟩

/-- A list with sentinel `1` holding the single element `2`. -/
def r12 : Heap := push_back (mkList H0 1) 1 2

/-- A list with sentinel `1` holding the elements `[2, 3]`. -/
def r123 : Heap := push_back r12 1 3

/-- `splice(pos = 3, first = 2, last = end)` on the ring `[2, 3]`: the
position lies inside the moved range. -/
def badSplice : Heap := splice r123 3 2 1

/-- Two disjoint lists in one heap: sentinel `1` holding `[2]` and sentinel
`4` holding `[5]`. -/
def twoRings : Heap := push_back (mkList r12 4) 4 5

/-- A tagged heap whose layer `1` holds an empty list with sentinel `1`
(`⟨1, 1⟩` self-links) and whose other layers are all null. -/
def TH1 : THeap := fun t a => if t = 1 ∧ a = 1 then ⟨1, 1⟩ else ⟨0, 0⟩

@[simp] theorem chain_nil (h : Heap) (a b : Nat) :
    chain h a [] b ↔ (h a).next = b ∧ (h b).prev = a := Iff.rfl

@[simp] theorem chain_cons (h : Heap) (a x b : Nat) (xs : List Nat) :
    chain h a (x :: xs) b ↔ (h a).next = x ∧ (h x).prev = a ∧ chain h x xs b := Iff.rfl

theorem chain_append (h : Heap) (xs : List Nat) (a y b : Nat) (ys : List Nat) :
    chain h a (xs ++ y :: ys) b ↔ chain h a xs y ∧ chain h y ys b := by
  induction xs generalizing a with
  | nil => simp [chain]; tauto
  | cons x xs ih => simp [chain, ih x]; tauto

@[simp] theorem lastA_nil (a : Nat) : lastA a [] = a := rfl

@[simp] theorem lastA_cons (a x : Nat) (xs : List Nat) :
    lastA a (x :: xs) = lastA x xs := rfl

@[simp] theorem headA_nil (b : Nat) : headA [] b = b := rfl

@[simp] theorem headA_cons (x b : Nat) (xs : List Nat) : headA (x :: xs) b = x := rfl

theorem lastA_mem (a : Nat) (xs : List Nat) : lastA a xs ∈ a :: xs := by
  induction xs generalizing a with
  | nil => simp
  | cons x xs ih =>
      have := ih x
      simp only [lastA_cons]
      rcases List.mem_cons.1 this with h | h
      · simp [h]
      · simp [List.mem_cons, h]

@[simp] theorem lastA_concat (a y : Nat) (xs : List Nat) :
    lastA a (xs ++ [y]) = y := by
  induction xs generalizing a with
  | nil => rfl
  | cons x xs ih => simpa using ih x

theorem chain_next_of (h : Heap) (a b : Nat) (xs : List Nat)
    (hc : chain h a xs b) : (h a).next = headA xs b := by
  cases xs with
  | nil => exact hc.1
  | cons x xs => exact hc.1

theorem chain_prev_of (h : Heap) (a b : Nat) (xs : List Nat)
    (hc : chain h a xs b) : (h b).prev = lastA a xs := by
  induction xs generalizing a with
  | nil => exact hc.2
  | cons x xs ih => exact (ih x hc.2.2 : _)

theorem chain_congr (h h' : Heap) (a b : Nat) (xs : List Nat)
    (ha : (h' a).next = (h a).next) (hb : (h' b).prev = (h b).prev)
    (hn : ∀ x ∈ xs, (h' x).next = (h x).next)
    (hp : ∀ x ∈ xs, (h' x).prev = (h x).prev)
    (hc : chain h a xs b) : chain h' a xs b := by
  induction xs generalizing a with
  | nil => exact ⟨ha.trans hc.1, hb.trans hc.2⟩
  | cons x xs ih =>
      obtain ⟨h1, h2, h3⟩ := hc
      exact ⟨ha.trans h1, ((hp x (by simp)).trans h2 : _),
        ih x (hn x (by simp)) (fun y hy => hn y (by simp [hy]))
          (fun y hy => hp y (by simp [hy])) h3⟩

theorem chain_retarget (h h' : Heap) (a : Nat) (xs : List Nat) (b b' : Nat)
    (hc : chain h a xs b) (hnd : (a :: xs).Nodup)
    (hlast : (h' (lastA a xs)).next = b')
    (hbp : (h' b').prev = lastA a xs)
    (hfrn : ∀ x ∈ a :: xs, x ≠ lastA a xs → (h' x).next = (h x).next)
    (hfrp : ∀ x ∈ xs, (h' x).prev = (h x).prev) :
    chain h' a xs b' := by
  induction xs generalizing a with
  | nil => exact ⟨hlast, hbp⟩
  | cons x xs ih =>
      obtain ⟨h1, h2, h3⟩ := hc
      have hax : a ∉ x :: xs := (List.nodup_cons.1 hnd).1
      have hane : a ≠ lastA x xs := by
        intro hcontra
        exact hax (hcontra ▸ lastA_mem x xs)
      refine ⟨(hfrn a (by simp) (by simpa using hane)).trans h1,
        (hfrp x (by simp)).trans h2, ?_⟩
      exact ih x h3 (List.nodup_cons.1 hnd).2 (by simpa using hlast)
        (by simpa using hbp)
        (fun y hy hyne => hfrn y (by simp [List.mem_cons] at hy ⊢; tauto)
          (by simpa using hyne))
        (fun y hy => hfrp y (by simp [hy]))

theorem chain_rehead (h h' : Heap) (a a' : Nat) (xs : List Nat) (b : Nat)
    (hc : chain h a xs b) (hnd : xs.Nodup)
    (hhead : (h' a').next = headA xs b)
    (hhp : (h' (headA xs b)).prev = a')
    (hfrn : ∀ x ∈ xs, (h' x).next = (h x).next)
    (hfrp : ∀ x ∈ xs, x ≠ headA xs b → (h' x).prev = (h x).prev)
    (hbp : xs ≠ [] → (h' b).prev = (h b).prev) :
    chain h' a' xs b := by
  cases xs with
  | nil => exact ⟨hhead, hhp⟩
  | cons x xs =>
      obtain ⟨h1, h2, h3⟩ := hc
      refine ⟨hhead, hhp, ?_⟩
      have hxxs : x ∉ xs := (List.nodup_cons.1 hnd).1
      exact chain_congr h h' x b xs (hfrn x (by simp)) (hbp (by simp))
        (fun y hy => hfrn y (by simp [hy]))
        (fun y hy => hfrp y (by simp [hy])
          (fun hyx => hxxs ((show y = x from hyx) ▸ hy)))
        h3

@[simp] theorem flipH_prev (h : Heap) (x : Nat) : (flipH h x).prev = (h x).next := rfl

@[simp] theorem flipH_next (h : Heap) (x : Nat) : (flipH h x).next = (h x).prev := rfl

theorem chain_flip (h : Heap) (a b : Nat) (xs : List Nat)
    (hc : chain h a xs b) : chain (flipH h) b xs.reverse a := by
  induction xs generalizing a with
  | nil => exact ⟨hc.2, hc.1⟩
  | cons x xs ih =>
      obtain ⟨h1, h2, h3⟩ := hc
      have := ih x h3
      simp only [List.reverse_cons]
      rw [chain_append (flipH h) xs.reverse b x a []]
      exact ⟨this, h2, h1⟩

theorem chain_mem_split (h : Heap) (a b p : Nat) (xs : List Nat)
    (hc : chain h a xs b) (hp : p ∈ xs) :
    ∃ ys zs, xs = ys ++ p :: zs ∧ chain h a ys p ∧ chain h p zs b := by
  obtain ⟨ys, zs, rfl⟩ := List.append_of_mem hp
  rw [chain_append] at hc
  exact ⟨ys, zs, rfl, hc.1, hc.2⟩

theorem chain_next_mem (h : Heap) (a b : Nat) (xs : List Nat)
    (hc : chain h a xs b) (y : Nat) (hy : y ∈ a :: xs) :
    (h y).next ∈ xs ++ [b] := by
  induction xs generalizing a with
  | nil =>
      have : y = a := by simpa using hy
      subst this
      simp [hc.1]
  | cons x xs ih =>
      obtain ⟨h1, h2, h3⟩ := hc
      rcases List.mem_cons.1 hy with rfl | hy'
      · simp [h1]
      · have := ih x h3 hy'
        simp only [List.cons_append, List.mem_cons]
        right
        exact this

theorem chain_prev_mem (h : Heap) (a b : Nat) (xs : List Nat)
    (hc : chain h a xs b) (y : Nat) (hy : y ∈ b :: xs) :
    (h y).prev ∈ xs ++ [a] := by
  have hf := chain_flip h a b xs hc
  have := chain_next_mem (flipH h) b a xs.reverse hf y (by
    rcases List.mem_cons.1 hy with rfl | hy'
    · simp
    · simp [hy'])
  simp only [flipH_next] at this
  rcases List.mem_append.1 this with hmem | hmem
  · exact List.mem_append.2 (Or.inl (List.mem_reverse.1 hmem))
  · exact List.mem_append.2 (Or.inr hmem)

/-- In a ring, stepping forward then reading `prev` returns to the start:
`(h ((h p).next)).prev = p` for every node `p` of the ring. -/
theorem ring_next_prev (h : Heap) (s : Nat) (xs : List Nat)
    (hc : chain h s xs s) (p : Nat) (hp : p ∈ s :: xs) :
    (h ((h p).next)).prev = p := by
  rcases List.mem_cons.1 hp with rfl | hmem
  · cases xs with
    | nil => rw [hc.1, hc.2]
    | cons x xs' => rw [hc.1, hc.2.1]
  · obtain ⟨ys, zs, rfl, -, hzs⟩ := chain_mem_split h s s p xs hc hmem
    cases zs with
    | nil => rw [hzs.1, hzs.2]
    | cons z zs' => rw [hzs.1, hzs.2.1]

/-- In a ring, stepping backward then reading `next` returns to the start. -/
theorem ring_prev_next (h : Heap) (s : Nat) (xs : List Nat)
    (hc : chain h s xs s) (p : Nat) (hp : p ∈ s :: xs) :
    (h ((h p).prev)).next = p := by
  have hf := chain_flip h s s xs hc
  have := ring_next_prev (flipH h) s xs.reverse hf p (by
    rcases List.mem_cons.1 hp with rfl | hmem
    · simp
    · simp [hmem])
  simpa using this

theorem walkPrev_eq_flip (h : Heap) (stop cur fuel : Nat) :
    walkPrev h stop cur fuel = walkNext (flipH h) stop cur fuel := by
  induction fuel generalizing cur with
  | zero => rfl
  | succ n ih => simp [walkPrev, walkNext, ih]

theorem walkNext_of_chain (h : Heap) (a b : Nat) (xs : List Nat)
    (hc : chain h a xs b) (hstop : ∀ x ∈ xs, x ≠ b) :
    ∀ fuel, xs.length < fuel → walkNext h b ((h a).next) fuel = xs := by
  induction xs generalizing a with
  | nil =>
      intro fuel hfuel
      obtain ⟨n, rfl⟩ : ∃ n, fuel = n + 1 := ⟨fuel - 1, by omega⟩
      simp [walkNext, hc.1]
  | cons x xs ih =>
      intro fuel hfuel
      obtain ⟨n, rfl⟩ : ∃ n, fuel = n + 1 := ⟨fuel - 1, by omega⟩
      obtain ⟨h1, h2, h3⟩ := hc
      rw [h1, walkNext]
      rw [if_neg (hstop x (by simp))]
      rw [ih x h3 (fun y hy => hstop y (by simp [hy])) n (by simpa using hfuel)]

/-- Forward traversal of a valid ring from `begin()` visits exactly the
element addresses, in order. -/
theorem ring_walkNext (h : Heap) (s : Nat) (xs : List Nat)
    (inv : ringInv h s xs) (fuel : Nat) (hfuel : xs.length < fuel) :
    walkNext h s ((h s).next) fuel = xs := by
  obtain ⟨-, hnd, hc⟩ := inv
  have hs : s ∉ xs := (List.nodup_cons.1 hnd).1
  exact walkNext_of_chain h s s xs hc
    (fun x hx hxs => hs (hxs ▸ hx)) fuel hfuel

/-- Backward traversal of a valid ring from the last element visits exactly
the element addresses, in reverse order. -/
theorem ring_walkPrev (h : Heap) (s : Nat) (xs : List Nat)
    (inv : ringInv h s xs) (fuel : Nat) (hfuel : xs.length < fuel) :
    walkPrev h s ((h s).prev) fuel = xs.reverse := by
  obtain ⟨-, hnd, hc⟩ := inv
  have hs : s ∉ xs := (List.nodup_cons.1 hnd).1
  rw [walkPrev_eq_flip]
  have hf := chain_flip h s s xs hc
  have : (flipH h s).next = (h s).prev := rfl
  rw [← this]
  exact walkNext_of_chain (flipH h) s s xs.reverse hf
    (fun x hx hxs => hs (hxs ▸ List.mem_reverse.1 hx)) fuel
    (by simpa using hfuel)

theorem Link.ext2 (a b : Link) (hp : a.prev = b.prev) (hn : a.next = b.next) :
    a = b := by
  cases a; cases b; simp_all

theorem nodup_ring_concat (s e : Nat) (xs : List Nat)
    (hnd : (s :: xs).Nodup) (he : e ∉ s :: xs) : (s :: (xs ++ [e])).Nodup := by
  have h1 : s ∉ xs := (List.nodup_cons.1 hnd).1
  have h2 : xs.Nodup := (List.nodup_cons.1 hnd).2
  have h3 : e ≠ s := fun hc => he (by simp [hc])
  have h4 : e ∉ xs := fun hc => he (by simp [hc])
  rw [List.nodup_cons]
  refine ⟨?_, ?_⟩
  · simp only [List.mem_append, List.mem_singleton]
    rintro (hs | rfl)
    · exact h1 hs
    · exact h3 rfl
  · rw [show xs ++ [e] = xs ++ e :: [] from rfl, List.nodup_middle]
    simpa [List.nodup_cons] using ⟨h4, h2⟩

/-- The fresh sentinel written by the `list()` constructor forms a valid
empty ring. -/
theorem mkList_ring (h : Heap) (s : Nat) (hs : s ≠ 0) :
    ringInv (mkList h s) s [] := by
  refine ⟨by simpa using (Ne.symm hs), by simp, ?_, ?_⟩ <;> simp [mkList]

/-- `mkList` only writes the sentinel node. -/
theorem mkList_frame (h : Heap) (s y : Nat) (hy : y ≠ s) :
    mkList h s y = h y := by
  apply Link.ext2 <;> simp [mkList, hy]

theorem nodup_ring_cons (s e : Nat) (xs : List Nat)
    (hnd : (s :: xs).Nodup) (he : e ∉ s :: xs) : (s :: e :: xs).Nodup := by
  have h1 : s ∉ xs := (List.nodup_cons.1 hnd).1
  have h2 : xs.Nodup := (List.nodup_cons.1 hnd).2
  have h3 : e ≠ s := fun hq => he (by simp [hq])
  have h4 : e ∉ xs := fun hq => he (by simp [hq])
  refine List.nodup_cons.2 ⟨?_, List.nodup_cons.2 ⟨h4, h2⟩⟩
  simp only [List.mem_cons]
  rintro (rfl | hmem)
  · exact h3 rfl
  · exact h1 hmem

/-- `push_back` on a valid ring appends the element at the back and keeps the
ring valid. -/
theorem push_back_ring (h : Heap) (s e : Nat) (xs : List Nat)
    (inv : ringInv h s xs) (he : e ∉ s :: xs) (he0 : e ≠ 0) :
    ringInv (push_back h s e) s (xs ++ [e]) := by
  obtain ⟨h0, hnd, hc⟩ := inv
  have hes : ¬ (e = s) := fun hq => he (by simp [hq])
  have hse : ¬ (s = e) := fun hq => hes hq.symm
  have hp : (h s).prev = lastA s xs := chain_prev_of h s s xs hc
  refine ⟨?_, nodup_ring_concat s e xs hnd he, ?_⟩
  · intro hmem
    rcases List.mem_cons.1 hmem with h' | h'
    · exact h0 (by simp [h'])
    · rcases List.mem_append.1 h' with h'' | h''
      · exact h0 (by simp [h''])
      · have hz : (0 : Nat) = e := by simpa using h''
        exact he0 hz.symm
  · rcases List.eq_nil_or_concat xs with rfl | ⟨ys, l, rfl⟩
    · have hp' : (h s).prev = s := by simpa using hp
      simp [push_back, chain, hp', hes, hse]
    · simp only [List.concat_eq_append] at he h0 hnd hc hp ⊢
      have hp' : (h s).prev = l := by simpa using hp
      have hlmem : l ∈ ys ++ [l] := by simp
      have hsl : ¬ (s = l) := fun hq => (List.nodup_cons.1 hnd).1 (hq ▸ hlmem)
      have hls : ¬ (l = s) := fun hq => hsl hq.symm
      have hel : ¬ (e = l) := fun hq => he (by simp [hq])
      have hle : ¬ (l = e) := fun hq => hel hq.symm
      have hsys : s ∉ ys := fun hm => (List.nodup_cons.1 hnd).1 (by simp [hm])
      have heys : e ∉ ys := fun hm => he (by simp [hm])
      have hlys : l ∉ ys := by
        have h2 := (List.nodup_cons.1 hnd).2
        rw [List.nodup_append] at h2
        exact fun hm => h2.2.2 hm (by simp)
      rw [show (ys ++ [l]) ++ [e] = ys ++ l :: [e] by simp]
      rw [chain_append]
      have hsplit := (chain_append h ys s l s []).1 (by simpa using hc)
      obtain ⟨A, B⟩ := hsplit
      constructor
      · refine chain_congr h (push_back h s e) s l ys ?_ ?_ ?_ ?_ A
        · simp [push_back, hp', hse, hsl]
        · simp [push_back, hp', hls, hle]
        · intro x hx
          have h1 : ¬ (x = e) := fun hq => heys (hq ▸ hx)
          have h2 : ¬ (x = l) := fun hq => hlys (hq ▸ hx)
          have h3 : ¬ (x = s) := fun hq => hsys (hq ▸ hx)
          simp [push_back, hp', h1, h2, h3]
        · intro x hx
          have h1 : ¬ (x = e) := fun hq => heys (hq ▸ hx)
          have h3 : ¬ (x = s) := fun hq => hsys (hq ▸ hx)
          simp [push_back, hp', h1, h3]
      · simp [push_back, chain, hp', hes, hse, hel, hle, hls, hsl]

/-- `push_back` writes only the former back node, the sentinel, and the new
element. -/
theorem push_back_frame (h : Heap) (s e : Nat) (xs : List Nat)
    (inv : ringInv h s xs) (y : Nat) (hy : y ∉ s :: xs) (hye : y ≠ e) :
    push_back h s e y = h y := by
  obtain ⟨h0, hnd, hc⟩ := inv
  have hp : (h s).prev = lastA s xs := chain_prev_of h s s xs hc
  have hyp : ¬ (y = lastA s xs) := fun hq => hy (hq ▸ lastA_mem s xs)
  have hys : ¬ (y = s) := fun hq => hy (by simp [hq])
  have hye' : ¬ (y = e) := hye
  apply Link.ext2 <;> simp [push_back, hp, hys, hye', hyp]

/-- `push_front` on a valid ring prepends the element at the front and keeps
the ring valid. -/
theorem push_front_ring (h : Heap) (s e : Nat) (xs : List Nat)
    (inv : ringInv h s xs) (he : e ∉ s :: xs) (he0 : e ≠ 0) :
    ringInv (push_front h s e) s (e :: xs) := by
  obtain ⟨h0, hnd, hc⟩ := inv
  have hes : ¬ (e = s) := fun hq => he (by simp [hq])
  have hse : ¬ (s = e) := fun hq => hes hq.symm
  refine ⟨?_, nodup_ring_cons s e xs hnd he, ?_⟩
  · intro hmem
    rcases List.mem_cons.1 hmem with h' | h'
    · exact h0 (by simp [h'])
    · rcases List.mem_cons.1 h' with h'' | h''
      · exact he0 h''.symm
      · exact h0 (by simp [h''])
  · cases xs with
    | nil =>
        have hf : (h s).next = s := hc.1
        simp [push_front, chain, hf, hes, hse]
    | cons x xs' =>
        obtain ⟨hf, hxp, hrest⟩ := hc
        have hsx : ¬ (s = x) := fun hq => (List.nodup_cons.1 hnd).1 (by simp [hq])
        have hxs : ¬ (x = s) := fun hq => hsx hq.symm
        have hex : ¬ (e = x) := fun hq => he (by simp [hq])
        have hxe : ¬ (x = e) := fun hq => hex hq.symm
        have hsxs' : s ∉ xs' := fun hm => (List.nodup_cons.1 hnd).1 (by simp [hm])
        have hexs' : e ∉ xs' := fun hm => he (by simp [hm])
        have hxxs' : x ∉ xs' := by
          have h2 := (List.nodup_cons.1 hnd).2
          exact (List.nodup_cons.1 h2).1
        refine ⟨?_, ?_, ?_, ?_, ?_⟩
        · simp [push_front, hf, hes, hse, hsx, hxs]
        · simp [push_front, hf, hes, hse, hex, hxe]
        · simp [push_front, hf, hes, hse, hex, hxe]
        · simp [push_front, hf, hes, hse, hex, hxe, hsx, hxs]
        · refine chain_congr h (push_front h s e) x s xs' ?_ ?_ ?_ ?_ hrest
          · simp [push_front, hf, hxs, hxe]
          · simp [push_front, hf, hse, hsx]
          · intro y hy
            have h1 : ¬ (y = e) := fun hq => hexs' (hq ▸ hy)
            have h2 : ¬ (y = x) := fun hq => hxxs' (hq ▸ hy)
            have h3 : ¬ (y = s) := fun hq => hsxs' (hq ▸ hy)
            simp [push_front, hf, h1, h2, h3]
          · intro y hy
            have h1 : ¬ (y = e) := fun hq => hexs' (hq ▸ hy)
            have h2 : ¬ (y = x) := fun hq => hxxs' (hq ▸ hy)
            simp [push_front, hf, h1, h2]

/-- `push_front` writes only the former front node, the sentinel, and the new
element. -/
theorem push_front_frame (h : Heap) (s e : Nat) (xs : List Nat)
    (inv : ringInv h s xs) (y : Nat) (hy : y ∉ s :: xs) (hye : y ≠ e) :
    push_front h s e y = h y := by
  obtain ⟨h0, hnd, hc⟩ := inv
  have hf : (h s).next = headA xs s := chain_next_of h s s xs hc
  have hyf : ¬ (y = headA xs s) := by
    intro hq
    have hmem : headA xs s ∈ s :: xs := by
      cases xs with
      | nil => simp
      | cons x xs' => simp
    exact hy (hq ▸ hmem)
  have hys : ¬ (y = s) := fun hq => hy (by simp [hq])
  apply Link.ext2 <;> simp [push_front, hf, hys, hye, hyf]

/-- Inserting at `end()` produces exactly the heap `push_back` produces. -/
theorem insert_end_heap (h : Heap) (s e : Nat) (xs : List Nat)
    (inv : ringInv h s xs) :
    (insert h s e).1 = push_back h s e := by
  obtain ⟨h0, hnd, hc⟩ := inv
  have hrt : (h ((h s).next)).prev = s := ring_next_prev h s xs hc s (by simp)
  funext y
  apply Link.ext2 <;>
    simp only [insert, push_back, hrt, Heap.setNext_next, Heap.setNext_prev,
      Heap.setPrev_prev, Heap.setPrev_next]

/-- The iterator returned by `insert` refers to the inserted element. -/
theorem insert_ret (h : Heap) (s e : Nat) (a b : List Nat)
    (inv : ringInv h s (a ++ b)) :
    (insert h (headA b s) e).2 = e := by
  obtain ⟨h0, hnd, hc⟩ := inv
  have hposmem : headA b s ∈ s :: (a ++ b) := by
    cases b with
    | nil => simp
    | cons z b' => simp
  have hrt : (h ((h (headA b s)).next)).prev = headA b s :=
    ring_next_prev h s (a ++ b) hc (headA b s) hposmem
  simp [insert, hrt]

/-- `insert` on a valid ring links the element immediately before the given
position and keeps the ring valid. -/
theorem insert_ring (h : Heap) (s e : Nat) (a b : List Nat)
    (inv : ringInv h s (a ++ b)) (he : e ∉ s :: (a ++ b)) (he0 : e ≠ 0) :
    ringInv (insert h (headA b s) e).1 s (a ++ e :: b) := by
  obtain ⟨h0, hnd, hc⟩ := inv
  have hsa : s ∉ a := fun hm => (List.nodup_cons.1 hnd).1 (by simp [hm])
  have hsb : s ∉ b := fun hm => (List.nodup_cons.1 hnd).1 (by simp [hm])
  have hea : e ∉ a := fun hm => he (by simp [hm])
  have heb : e ∉ b := fun hm => he (by simp [hm])
  have hes : ¬ (e = s) := fun hq => he (by simp [hq])
  have hse : ¬ (s = e) := fun hq => hes hq.symm
  have hndab : (a ++ b).Nodup := (List.nodup_cons.1 hnd).2
  have hdisj : List.Disjoint a b := List.disjoint_of_nodup_append hndab
  have hnew0 : 0 ∉ s :: (a ++ e :: b) := by
    intro hmem
    rcases List.mem_cons.1 hmem with hq | hq
    · exact h0 (by simp [hq])
    · rcases List.mem_append.1 hq with hq' | hq'
      · exact h0 (by simp [hq'])
      · rcases List.mem_cons.1 hq' with hq'' | hq''
        · exact he0 hq''.symm
        · exact h0 (by simp [hq''])
  have hnewnd : (s :: (a ++ e :: b)).Nodup := by
    rw [show s :: (a ++ e :: b) = (s :: a) ++ e :: b from rfl, List.nodup_middle]
    refine List.nodup_cons.2 ⟨?_, by simpa using hnd⟩
    intro hmem
    rcases List.mem_append.1 hmem with hq | hq
    · rcases List.mem_cons.1 hq with hq' | hq'
      · exact hes hq'
      · exact hea hq'
    · exact heb hq
  cases b with
  | nil =>
      refine ⟨hnew0, hnewnd, ?_⟩
      have hheap : (insert h (headA ([] : List Nat) s) e).1 = push_back h s e :=
        insert_end_heap h s e (a ++ []) ⟨h0, hnd, hc⟩
      rw [hheap]
      have hpb := push_back_ring h s e (a ++ []) ⟨h0, hnd, hc⟩ he he0
      have hch := hpb.2.2
      simpa using hch
  | cons x b' =>
      obtain ⟨A, B⟩ := (chain_append h a s x s b').1 hc
      have hxprev : (h x).prev = lastA s a := chain_prev_of h s x a A
      have hrt : (h ((h x).next)).prev = x :=
        ring_next_prev h s (a ++ x :: b') hc x (by simp)
      have hxa : x ∉ a := fun hm => hdisj hm (by simp)
      have hxs : ¬ (x = s) := fun hq => hsb (by simp [← hq])
      have hsx : ¬ (s = x) := fun hq => hxs hq.symm
      have hex : ¬ (e = x) := fun hq => heb (by simp [hq])
      have hxe : ¬ (x = e) := fun hq => hex hq.symm
      have hpm_mem : lastA s a ∈ s :: a := lastA_mem s a
      have hxpm : ¬ (x = lastA s a) := by
        intro hq
        rcases List.mem_cons.1 hpm_mem with hq' | hq'
        · exact hxs (hq.trans hq')
        · exact hxa (hq ▸ hq')
      have hepm : ¬ (e = lastA s a) := by
        intro hq
        rcases List.mem_cons.1 hpm_mem with hq' | hq'
        · exact hes (hq.trans hq')
        · exact hea (hq ▸ hq')
      have hpme : ¬ (lastA s a = e) := fun hq => hepm hq.symm
      refine ⟨hnew0, hnewnd, ?_⟩
      rw [show a ++ e :: x :: b' = a ++ e :: (x :: b') from rfl, chain_append]
      constructor
      · -- chain from s through a to the newly inserted element e
        refine chain_retarget h _ s a x e A
          (List.nodup_cons.2 ⟨hsa, (List.nodup_append.1 hndab).1⟩) ?_ ?_ ?_ ?_
        · simp [insert, hrt, hxprev, hpme]
        · simp [insert, hrt, hxprev, hex]
        · intro y hy hyne
          have h1 : ¬ (y = e) := by
            rcases List.mem_cons.1 hy with rfl | hy'
            · exact hse
            · exact fun hq => hea (hq ▸ hy')
          simp [insert, hrt, hxprev, h1, hyne]
        · intro y hy
          have h1 : ¬ (y = e) := fun hq => hea (hq ▸ hy)
          have h2 : ¬ (y = x) := fun hq => hxa (hq ▸ hy)
          simp [insert, hrt, hxprev, h1, h2]
      · -- chain from e through x :: b' back to s
        refine ⟨?_, ?_, ?_⟩
        · simp [insert, hrt, hxprev, hes]
        · simp [insert, hrt, hxprev, hxe]
        · refine chain_congr h _ x s b' ?_ ?_ ?_ ?_ B
          · simp [insert, hrt, hxprev, hxe, hxpm]
          · simp [insert, hrt, hxprev, hse, hsx]
          · intro y hy
            have h1 : ¬ (y = e) := fun hq => heb (hq ▸ List.mem_cons_of_mem x hy)
            have h2 : ¬ (y = lastA s a) := by
              intro hq
              rcases List.mem_cons.1 hpm_mem with hq' | hq'
              · exact hsb (hq' ▸ hq ▸ List.mem_cons_of_mem x hy)
              · exact hdisj (hq ▸ hq') (List.mem_cons_of_mem x hy)
            simp [insert, hrt, hxprev, h1, h2]
          · intro y hy
            have h1 : ¬ (y = e) := fun hq => heb (hq ▸ List.mem_cons_of_mem x hy)
            have h2 : ¬ (y = x) := by
              intro hq
              have hmem : x ∈ b' := hq ▸ hy
              have hndxb : (x :: b').Nodup := (List.nodup_append.1 hndab).2.1
              exact (List.nodup_cons.1 hndxb).1 hmem
            simp [insert, hrt, hxprev, h1, h2]

/-- `erase` on a valid ring removes exactly the addressed element, returns the
iterator to its successor, and resets the erased element's link to nullptr. -/
theorem erase_ring (h : Heap) (s x : Nat) (a b : List Nat)
    (inv : ringInv h s (a ++ x :: b)) :
    ringInv (erase h x).1 s (a ++ b) ∧ (erase h x).2 = headA b s ∧
      (erase h x).1 x = ⟨0, 0⟩ := by
  obtain ⟨h0, hnd, hc⟩ := inv
  obtain ⟨A, B⟩ := (chain_append h a s x s b).1 hc
  have hxprev : (h x).prev = lastA s a := chain_prev_of h s x a A
  have hxnext : (h x).next = headA b s := chain_next_of h x s b B
  have hrt : (h ((h x).next)).prev = x :=
    ring_next_prev h s (a ++ x :: b) hc x (by simp)
  have hm : (h (headA b s)).prev = x := by rw [← hxnext]; exact hrt
  have hndab : (a ++ x :: b).Nodup := (List.nodup_cons.1 hnd).2
  have hsa : s ∉ a := fun hm => (List.nodup_cons.1 hnd).1 (by simp [hm])
  have hsb : s ∉ b := fun hm => (List.nodup_cons.1 hnd).1 (by simp [hm])
  have hsx : ¬ (s = x) := fun hq => (List.nodup_cons.1 hnd).1 (by simp [hq])
  have hxs : ¬ (x = s) := fun hq => hsx hq.symm
  have hxa : x ∉ a := fun hm => List.disjoint_of_nodup_append hndab hm (by simp)
  have hxb : x ∉ b := by
    have hndxb : (x :: b).Nodup := (List.nodup_append.1 hndab).2.1
    exact (List.nodup_cons.1 hndxb).1
  have hpm_mem : lastA s a ∈ s :: a := lastA_mem s a
  have hz_mem : headA b s ∈ s :: b := by
    cases b with
    | nil => simp
    | cons z b' => simp
  have hxpa : ¬ (x = lastA s a) := by
    intro hq
    rcases List.mem_cons.1 hpm_mem with hq' | hq'
    · exact hxs (hq.trans hq')
    · exact hxa (hq ▸ hq')
  have hpax : ¬ (lastA s a = x) := fun hq => hxpa hq.symm
  have hxz : ¬ (x = headA b s) := by
    intro hq
    rcases List.mem_cons.1 hz_mem with hq' | hq'
    · exact hxs (hq.trans hq')
    · exact hxb (hq ▸ hq')
  have hzx : ¬ (headA b s = x) := fun hq => hxz hq.symm
  have hpa0 : ¬ (lastA s a = 0) := by
    intro hq
    rcases List.mem_cons.1 hpm_mem with hq' | hq'
    · exact h0 (by simp [hq ▸ hq'])
    · exact h0 (by simp [hq ▸ hq'])
  have hz0 : ¬ (headA b s = 0) := by
    intro hq
    rcases List.mem_cons.1 hz_mem with hq' | hq'
    · exact h0 (by simp [hq ▸ hq'])
    · exact h0 (by simp [hq ▸ hq'])
  have hsub : List.Sublist (s :: (a ++ b)) (s :: (a ++ x :: b)) :=
    ((List.sublist_cons_self x b).append_left a).cons₂ s
  refine ⟨⟨fun hm => h0 (hsub.mem hm), hnd.sublist hsub, ?_⟩, ?_, ?_⟩
  · -- the ring chain after erasing x
    cases b with
    | nil =>
        have hms : (h s).prev = x := by simpa using hm
        have hxns : (h x).next = s := by simpa using hxnext
        have hs0 : ¬ (s = 0) := fun hq => h0 (by simp [hq])
        rw [show a ++ ([] : List Nat) = a by simp]
        refine chain_retarget h _ s a x s A
          (List.nodup_cons.2 ⟨hsa, (List.nodup_append.1 hndab).1⟩) ?_ ?_ ?_ ?_
        · simp [erase, unlink, hms, hxns, hxprev, hxpa, hpax, hpa0, hs0, hxs, hsx]
        · simp [erase, unlink, hms, hxns, hxprev, hxpa, hpax, hpa0, hs0, hxs, hsx]
        · intro y hy hyne
          have h1 : ¬ (y = x) := by
            rcases List.mem_cons.1 hy with rfl | hy'
            · exact hsx
            · exact fun hq => hxa (hq ▸ hy')
          simp [erase, unlink, hms, hxns, hxprev, hxpa, hpax, hpa0, hs0, hxs, hsx, h1, hyne]
        · intro y hy
          have h1 : ¬ (y = x) := fun hq => hxa (hq ▸ hy)
          have h2 : ¬ (y = s) := fun hq => hsa (hq ▸ hy)
          simp [erase, unlink, hms, hxns, hxprev, hxpa, hpax, hpa0, hs0, hxs, hsx, h1, h2]
    | cons z b' =>
        have hmz : (h z).prev = x := by simpa using hm
        have hxnz : (h x).next = z := by simpa using hxnext
        have hxz' : ¬ (x = z) := by simpa using hxz
        have hzx' : ¬ (z = x) := by simpa using hzx
        have hz0' : ¬ (z = 0) := by simpa using hz0
        have hza : z ∉ a := fun hmem =>
          List.disjoint_of_nodup_append hndab hmem (by simp)
        have hzpa : ¬ (z = lastA s a) := by
          intro hq
          rcases List.mem_cons.1 hpm_mem with hq' | hq'
          · exact hsb (hq' ▸ hq ▸ by simp)
          · exact hza (hq ▸ hq')
        have hsz : ¬ (s = z) := fun hq => hsb (by simp [hq])
        have hzs : ¬ (z = s) := fun hq => hsz hq.symm
        rw [chain_append]
        constructor
        · refine chain_retarget h _ s a x z A
            (List.nodup_cons.2 ⟨hsa, (List.nodup_append.1 hndab).1⟩) ?_ ?_ ?_ ?_
          · simp [erase, unlink, hmz, hxnz, hxprev, hxpa, hpax, hxz', hzx', hpa0, hz0', hxs]
          · simp [erase, unlink, hmz, hxnz, hxprev, hxpa, hpax, hxz', hzx', hpa0, hz0', hxs, hzpa]
          · intro y hy hyne
            have h1 : ¬ (y = x) := by
              rcases List.mem_cons.1 hy with rfl | hy'
              · exact hsx
              · exact fun hq => hxa (hq ▸ hy')
            simp [erase, unlink, hmz, hxnz, hxprev, hxpa, hpax, hpa0, hz0', hxz', hzx', h1, hyne]
          · intro y hy
            have h1 : ¬ (y = x) := fun hq => hxa (hq ▸ hy)
            have h2 : ¬ (y = z) := by
              intro hq
              exact List.disjoint_of_nodup_append hndab (hq ▸ hy) (by simp)
            simp [erase, unlink, hmz, hxnz, hxprev, hxpa, hpax, hpa0, hz0', hxz', hzx', h1, h2, hxz]
        · have Brest : chain h z b' s := B.2.2
          refine chain_congr h _ z s b' ?_ ?_ ?_ ?_ Brest
          · simp [erase, unlink, hmz, hxnz, hxprev, hxpa, hpax, hpa0, hz0', hxz', hzx', hzx, hzpa]
          · simp [erase, unlink, hmz, hxnz, hxprev, hxpa, hpax, hpa0, hz0', hxz', hzx', hsx, hsz]
          · intro y hy
            have hndzb : (z :: b').Nodup := by
              have := (List.nodup_append.1 hndab).2.1
              exact (List.nodup_cons.1 this).2
            have h1 : ¬ (y = x) := fun hq => hxb (hq ▸ by simp [hy])
            have h2 : ¬ (y = lastA s a) := by
              intro hq
              rcases List.mem_cons.1 hpm_mem with hq' | hq'
              · exact hsb (hq' ▸ hq ▸ by simp [hy])
              · exact List.disjoint_of_nodup_append hndab (hq ▸ hq') (by simp [hy])
            simp [erase, unlink, hmz, hxnz, hxprev, hxpa, hpax, hpa0, hz0', hxz', hzx', h1, h2]
          · intro y hy
            have h1 : ¬ (y = x) := fun hq => hxb (hq ▸ by simp [hy])
            have h2 : ¬ (y = z) := by
              intro hq
              have hndzb : (z :: b').Nodup := (List.nodup_cons.1 (List.nodup_append.1 hndab).2.1).2
              exact (List.nodup_cons.1 hndzb).1 (hq ▸ hy)
            simp [erase, unlink, hmz, hxnz, hxprev, hxpa, hpax, hpa0, hz0', hxz', hzx', h1, h2]
  · -- the returned iterator refers to the successor of x
    simp [erase, unlink, hm, hxprev, hxnext, hxpa, hpax, hxz, hzx]
  · -- the erased element's link is reset to nullptr
    apply Link.ext2 <;>
      simp [erase, unlink, hm, hxprev, hxnext, hxpa, hpax, hpa0, hz0, hxz, hzx]

/-- `erase` writes only the two neighbours of the erased element and the
element itself. -/
theorem erase_frame (h : Heap) (s x : Nat) (a b : List Nat)
    (inv : ringInv h s (a ++ x :: b)) (y : Nat) (hy : y ∉ s :: (a ++ x :: b)) :
    (erase h x).1 y = h y := by
  obtain ⟨h0, hnd, hc⟩ := inv
  obtain ⟨A, B⟩ := (chain_append h a s x s b).1 hc
  have hxprev : (h x).prev = lastA s a := chain_prev_of h s x a A
  have hxnext : (h x).next = headA b s := chain_next_of h x s b B
  have hrt : (h ((h x).next)).prev = x :=
    ring_next_prev h s (a ++ x :: b) hc x (by simp)
  have hm : (h (headA b s)).prev = x := by rw [← hxnext]; exact hrt
  have hpm_mem : lastA s a ∈ s :: a := lastA_mem s a
  have hz_mem : headA b s ∈ s :: b := by
    cases b with
    | nil => simp
    | cons z b' => simp
  have hypa : ¬ (y = lastA s a) := by
    intro hq
    rcases List.mem_cons.1 hpm_mem with hq' | hq'
    · exact hy (by simp [hq.trans hq'])
    · exact hy (by simp [hq ▸ hq'])
  have hyz : ¬ (y = headA b s) := by
    intro hq
    rcases List.mem_cons.1 hz_mem with hq' | hq'
    · exact hy (by simp [hq.trans hq'])
    · exact hy (by simp [hq ▸ hq'])
  have hyx : ¬ (y = x) := fun hq => hy (by simp [hq])
  have hxa : x ∉ a := fun hmem =>
    List.disjoint_of_nodup_append (List.nodup_cons.1 hnd).2 hmem (by simp)
  have hxs : ¬ (x = s) :=
    fun hq => (List.nodup_cons.1 hnd).1 (by simp [← hq])
  have hxpa : ¬ (x = lastA s a) := by
    intro hq
    rcases List.mem_cons.1 hpm_mem with hq' | hq'
    · exact hxs (hq.trans hq')
    · exact hxa (hq ▸ hq')
  have hpax : ¬ (lastA s a = x) := fun hq => hxpa hq.symm
  have hpa0 : ¬ (lastA s a = 0) := by
    intro hq
    rcases List.mem_cons.1 hpm_mem with hq' | hq'
    · exact h0 (by simp [hq ▸ hq'])
    · exact h0 (by simp [hq ▸ hq'])
  have hz0 : ¬ (headA b s = 0) := by
    intro hq
    rcases List.mem_cons.1 hz_mem with hq' | hq'
    · exact h0 (by simp [hq ▸ hq'])
    · exact h0 (by simp [hq ▸ hq'])
  apply Link.ext2 <;>
    simp [erase, unlink, hm, hxprev, hxnext, hypa, hyz, hyx, hxpa, hpax, hpa0, hz0]

/-- A ring invariant only depends on the heap values of its own nodes. -/
theorem ringInv_congr (h h' : Heap) (s : Nat) (xs : List Nat)
    (hfr : ∀ y ∈ s :: xs, h' y = h y) (inv : ringInv h s xs) :
    ringInv h' s xs := by
  obtain ⟨h0, hnd, hc⟩ := inv
  refine ⟨h0, hnd, chain_congr h h' s s xs ?_ ?_ ?_ ?_ hc⟩
  · rw [hfr s (by simp)]
  · rw [hfr s (by simp)]
  · intro y hy
    rw [hfr y (by simp [hy])]
  · intro y hy
    rw [hfr y (by simp [hy])]

/-- `push_back` followed by `pop_back` restores every node except the pushed
element itself, whose link keeps the stale pointers `⟨old back, sentinel⟩`. -/
theorem push_pop_back (h : Heap) (s e : Nat) (xs : List Nat)
    (inv : ringInv h s xs) (he : e ∉ s :: xs) :
    (∀ y, y ≠ e → pop_back (push_back h s e) s y = h y) ∧
      pop_back (push_back h s e) s e = ⟨lastA s xs, s⟩ := by
  obtain ⟨h0, hnd, hc⟩ := inv
  have hp : (h s).prev = lastA s xs := chain_prev_of h s s xs hc
  have hpn : (h (lastA s xs)).next = s := by
    have := ring_prev_next h s xs hc s (by simp)
    rwa [hp] at this
  have hes : ¬ (e = s) := fun hq => he (by simp [hq])
  have hse : ¬ (s = e) := fun hq => hes hq.symm
  have hep : ¬ (e = lastA s xs) := fun hq => he (by simp [hq ▸ lastA_mem s xs])
  have hpe : ¬ (lastA s xs = e) := fun hq => hep hq.symm
  constructor
  · intro y hye
    by_cases hys : y = s
    · subst hys
      by_cases hps : lastA y xs = y
      · have hpn' : (h y).next = y := by rw [hps] at hpn; exact hpn
        apply Link.ext2 <;>
          simp [pop_back, push_back, hp, hpn', hps, hse, hes, hpe, hep]
      · have hsp' : ¬ (y = lastA y xs) := fun hq => hps hq.symm
        apply Link.ext2 <;>
          simp [pop_back, push_back, hp, hpn, hps, hsp', hse, hes, hpe, hep]
    · by_cases hyp : y = lastA s xs
      · subst hyp
        apply Link.ext2 <;>
          simp [pop_back, push_back, hp, hpn, hys, hse, hes, hpe, hep]
      · apply Link.ext2 <;>
          simp [pop_back, push_back, hp, hpn, hys, hyp, hye, hse, hes, hpe, hep]
  · apply Link.ext2 <;>
      simp [pop_back, push_back, hp, hpn, hse, hes, hpe, hep]

/-- `unlink` on a linked element removes it from its ring, repairs the two
neighbours, resets the element to nullptr, and touches nothing else. -/
theorem unlink_ring (h : Heap) (s x : Nat) (a b : List Nat)
    (inv : ringInv h s (a ++ x :: b)) :
    ringInv (unlink h x) s (a ++ b) ∧ unlink h x x = ⟨0, 0⟩ ∧
      (∀ y, y ∉ s :: (a ++ x :: b) → unlink h x y = h y) := by
  obtain ⟨h0, hnd, hc⟩ := inv
  obtain ⟨A, B⟩ := (chain_append h a s x s b).1 hc
  have hxprev : (h x).prev = lastA s a := chain_prev_of h s x a A
  have hxnext : (h x).next = headA b s := chain_next_of h x s b B
  have hndab : (a ++ x :: b).Nodup := (List.nodup_cons.1 hnd).2
  have hsa : s ∉ a := fun hm => (List.nodup_cons.1 hnd).1 (by simp [hm])
  have hsb : s ∉ b := fun hm => (List.nodup_cons.1 hnd).1 (by simp [hm])
  have hsx : ¬ (s = x) := fun hq => (List.nodup_cons.1 hnd).1 (by simp [hq])
  have hxs : ¬ (x = s) := fun hq => hsx hq.symm
  have hxa : x ∉ a := fun hm => List.disjoint_of_nodup_append hndab hm (by simp)
  have hxb : x ∉ b := by
    have hndxb : (x :: b).Nodup := (List.nodup_append.1 hndab).2.1
    exact (List.nodup_cons.1 hndxb).1
  have hpm_mem : lastA s a ∈ s :: a := lastA_mem s a
  have hz_mem : headA b s ∈ s :: b := by
    cases b with
    | nil => simp
    | cons z b' => simp
  have hxpa : ¬ (x = lastA s a) := by
    intro hq
    rcases List.mem_cons.1 hpm_mem with hq' | hq'
    · exact hxs (hq.trans hq')
    · exact hxa (hq ▸ hq')
  have hpax : ¬ (lastA s a = x) := fun hq => hxpa hq.symm
  have hpa0 : ¬ (lastA s a = 0) := by
    intro hq
    rcases List.mem_cons.1 hpm_mem with hq' | hq'
    · exact h0 (by simp [hq ▸ hq'])
    · exact h0 (by simp [hq ▸ hq'])
  have hz0 : ¬ (headA b s = 0) := by
    intro hq
    rcases List.mem_cons.1 hz_mem with hq' | hq'
    · exact h0 (by simp [hq ▸ hq'])
    · exact h0 (by simp [hq ▸ hq'])
  have hsub : List.Sublist (s :: (a ++ b)) (s :: (a ++ x :: b)) :=
    ((List.sublist_cons_self x b).append_left a).cons₂ s
  refine ⟨⟨fun hmem => h0 (hsub.mem hmem), hnd.sublist hsub, ?_⟩, ?_, ?_⟩
  · cases b with
    | nil =>
        have hxns : (h x).next = s := by simpa using hxnext
        have hs0 : ¬ (s = 0) := fun hq => h0 (by simp [hq])
        rw [show a ++ ([] : List Nat) = a by simp]
        refine chain_retarget h _ s a x s A
          (List.nodup_cons.2 ⟨hsa, (List.nodup_append.1 hndab).1⟩) ?_ ?_ ?_ ?_
        · simp [unlink, hxns, hxprev, hxpa, hpax, hpa0, hs0, hxs, hsx]
        · simp [unlink, hxns, hxprev, hxpa, hpax, hpa0, hs0, hxs, hsx]
        · intro y hy hyne
          have h1 : ¬ (y = x) := by
            rcases List.mem_cons.1 hy with rfl | hy'
            · exact hsx
            · exact fun hq => hxa (hq ▸ hy')
          simp [unlink, hxns, hxprev, hxpa, hpax, hpa0, hs0, hxs, hsx, h1, hyne]
        · intro y hy
          have h1 : ¬ (y = x) := fun hq => hxa (hq ▸ hy)
          have h2 : ¬ (y = s) := fun hq => hsa (hq ▸ hy)
          simp [unlink, hxns, hxprev, hxpa, hpax, hpa0, hs0, hxs, hsx, h1, h2]
    | cons z b' =>
        have hxnz : (h x).next = z := by simpa using hxnext
        have hz0' : ¬ (z = 0) := by simpa using hz0
        have hza : z ∉ a := fun hmem =>
          List.disjoint_of_nodup_append hndab hmem (by simp)
        have hxz' : ¬ (x = z) := by
          intro hq
          exact hxb (hq ▸ by simp)
        have hzx' : ¬ (z = x) := fun hq => hxz' hq.symm
        have hzpa : ¬ (z = lastA s a) := by
          intro hq
          rcases List.mem_cons.1 hpm_mem with hq' | hq'
          · exact hsb (hq' ▸ hq ▸ by simp)
          · exact hza (hq ▸ hq')
        have hsz : ¬ (s = z) := fun hq => hsb (by simp [hq])
        have hzs : ¬ (z = s) := fun hq => hsz hq.symm
        rw [chain_append]
        constructor
        · refine chain_retarget h _ s a x z A
            (List.nodup_cons.2 ⟨hsa, (List.nodup_append.1 hndab).1⟩) ?_ ?_ ?_ ?_
          · simp [unlink, hxnz, hxprev, hxpa, hpax, hpa0, hz0', hxs, hxz', hzx']
          · simp [unlink, hxnz, hxprev, hxpa, hpax, hpa0, hz0', hxs, hxz', hzx', hzpa]
          · intro y hy hyne
            have h1 : ¬ (y = x) := by
              rcases List.mem_cons.1 hy with rfl | hy'
              · exact hsx
              · exact fun hq => hxa (hq ▸ hy')
            simp [unlink, hxnz, hxprev, hxpa, hpax, hpa0, hz0', hxz', hzx', h1, hyne]
          · intro y hy
            have h1 : ¬ (y = x) := fun hq => hxa (hq ▸ hy)
            have h2 : ¬ (y = z) := fun hq => hza (hq ▸ hy)
            simp [unlink, hxnz, hxprev, hxpa, hpax, hpa0, hz0', hxz', hzx', h1, h2]
        · have Brest : chain h z b' s := B.2.2
          refine chain_congr h _ z s b' ?_ ?_ ?_ ?_ Brest
          · simp [unlink, hxnz, hxprev, hxpa, hpax, hpa0, hz0', hzx', hzpa]
          · simp [unlink, hxnz, hxprev, hxpa, hpax, hpa0, hz0', hsx, hsz]
          · intro y hy
            have h1 : ¬ (y = x) := fun hq => hxb (hq ▸ by simp [hy])
            have h2 : ¬ (y = lastA s a) := by
              intro hq
              rcases List.mem_cons.1 hpm_mem with hq' | hq'
              · exact hsb (hq' ▸ hq ▸ by simp [hy])
              · exact List.disjoint_of_nodup_append hndab (hq ▸ hq') (by simp [hy])
            simp [unlink, hxnz, hxprev, hxpa, hpax, hpa0, hz0', h1, h2]
          · intro y hy
            have h1 : ¬ (y = x) := fun hq => hxb (hq ▸ by simp [hy])
            have h2 : ¬ (y = z) := by
              intro hq
              have hndzb : (z :: b').Nodup :=
                (List.nodup_cons.1 (List.nodup_append.1 hndab).2.1).2
              exact (List.nodup_cons.1 hndzb).1 (hq ▸ hy)
            simp [unlink, hxnz, hxprev, hxpa, hpax, hpa0, hz0', h1, h2]
  · apply Link.ext2 <;>
      simp [unlink, hxprev, hxnext, hxpa, hpax, hpa0, hz0]
  · intro y hy
    have hypa : ¬ (y = lastA s a) := by
      intro hq
      rcases List.mem_cons.1 hpm_mem with hq' | hq'
      · exact hy (by simp [hq.trans hq'])
      · exact hy (by simp [hq ▸ hq'])
    have hyz : ¬ (y = headA b s) := by
      intro hq
      rcases List.mem_cons.1 hz_mem with hq' | hq'
      · exact hy (by simp [hq.trans hq'])
      · exact hy (by simp [hq ▸ hq'])
    have hyx : ¬ (y = x) := fun hq => hy (by simp [hq])
    apply Link.ext2 <;>
      simp [unlink, hxprev, hxnext, hypa, hyz, hyx, hxpa, hpax, hpa0, hz0]

/-- `unlink` always leaves the element's own link reset to nullptr. -/
theorem unlink_self (h : Heap) (x : Nat) : unlink h x x = ⟨0, 0⟩ := by
  apply Link.ext2 <;> simp [unlink]

/-- `unlink` of an unset element is a no-op (idempotence base case). -/
theorem unlink_unset (h : Heap) (x : Nat) (hx : h x = ⟨0, 0⟩) :
    unlink h x = h := by
  funext y
  by_cases hyx : y = x
  · subst hyx
    apply Link.ext2 <;> simp [unlink, hx]
  · apply Link.ext2 <;> simp [unlink, hx, hyx]

/-- `unlink` is idempotent. -/
theorem unlink_idem (h : Heap) (x : Nat) :
    unlink (unlink h x) x = unlink h x :=
  unlink_unset (unlink h x) x (unlink_self h x)

/-- `clear()` self-links the sentinel and touches no other node. -/
theorem clear_spec (h : Heap) (s : Nat) :
    clear h s s = ⟨s, s⟩ ∧ ∀ y, y ≠ s → clear h s y = h y := by
  constructor
  · apply Link.ext2 <;> simp [clear]
  · intro y hys
    apply Link.ext2 <;> simp [clear, hys]

theorem lastA_append (a : Nat) (xs ys : List Nat) :
    lastA a (xs ++ ys) = lastA (lastA a xs) ys := by
  induction xs generalizing a with
  | nil => rfl
  | cons x xs ih => simpa using ih x

/-- The node at the start of the suffix `ys` has the last node of the prefix
as its predecessor. -/
theorem chain_mid_prev (h : Heap) (a b : Nat) (xs ys : List Nat)
    (hc : chain h a (xs ++ ys) b) :
    (h (headA ys b)).prev = lastA a xs := by
  cases ys with
  | nil =>
      rw [List.append_nil] at hc
      simpa using chain_prev_of h a b xs hc
  | cons y ys' =>
      obtain ⟨A, -⟩ := (chain_append h xs a y b ys').1 hc
      simpa using chain_prev_of h a y xs A

/-- `splice` is a no-op when `first == last`. -/
theorem splice_noop (h : Heap) (pos q : Nat) : splice h pos q q = h := by
  simp [splice]

/-- Normal form of the six pointer writes performed by a non-trivial
`splice`, given the ring facts about the five boundary nodes. -/
theorem splice_norm (h : Heap) (p pp f pf pl l : Nat)
    (hrtp : (h ((h p).next)).prev = p)
    (hlprev : (h l).prev = pl)
    (hpln : (h pl).next = l)
    (hfprev : (h f).prev = pf)
    (hpfn : (h pf).next = f)
    (hpprev : (h p).prev = pp)
    (hfl : ¬ (f = l)) (hpl' : ¬ (p = l)) (hfp : ¬ (f = p)) :
    splice h p f l =
      (((((h.setPrev l pf).setNext pf l).setNext pl p).setPrev
        f pp).setPrev p pl).setNext pp f := by
  simp [splice, hrtp, hlprev, hpln, hfprev, hpfn, hpprev, hfl, hpl', hfp]

/-- When the position equals `last`, a same-list `splice` restores every
pointer it touches: the operation is the identity on the heap. -/
theorem splice_norm_poslast (h : Heap) (f pf pl l : Nat)
    (hrtl : (h ((h l).next)).prev = l)
    (hlprev : (h l).prev = pl)
    (hpln : (h pl).next = l)
    (hfprev : (h f).prev = pf)
    (hpfn : (h pf).next = f)
    (hfl : ¬ (f = l)) :
    splice h l f l = h := by
  have hnorm : splice h l f l =
      (((((h.setPrev l pf).setNext pf l).setNext pl l).setPrev
        f pf).setPrev l pl).setNext pf f := by
    simp [splice, hrtl, hlprev, hpln, hfprev, hpfn, hfl]
  rw [hnorm]
  funext y
  apply Link.ext2
  · by_cases hyl : y = l
    · simp [hyl, hlprev]
    · by_cases hyf : y = f
      · simp [hyl, hyf, hfprev, hfl]
      · simp [hyl, hyf]
  · by_cases hypf : y = pf
    · simp [hypf, hpfn]
    · by_cases hypl : y = pl
      · by_cases hplpf : pl = pf
        · exact absurd (hypl.trans hplpf) hypf
        · simp [hypf, hypl, hplpf, hpln]
      · simp [hypf, hypl]

theorem spliceN_next (h : Heap) (p pp f pf pl l y : Nat) :
    (((((((h.setPrev l pf).setNext pf l).setNext pl p).setPrev
        f pp).setPrev p pl).setNext pp f) y).next =
      if y = pp then f else if y = pl then p
      else if y = pf then l else (h y).next := by
  simp only [Heap.setNext_next, Heap.setPrev_next]

theorem spliceN_prev (h : Heap) (p pp f pf pl l y : Nat) :
    (((((((h.setPrev l pf).setNext pf l).setNext pl p).setPrev
        f pp).setPrev p pl).setNext pp f) y).prev =
      if y = p then pl else if y = f then pp
      else if y = l then pf else (h y).prev := by
  simp only [Heap.setNext_prev, Heap.setPrev_prev]

/-- A chain over an appended list restricts to a chain over the prefix,
ending at the first node of the suffix. -/
theorem chain_take (h : Heap) (a b : Nat) (xs ys : List Nat)
    (hc : chain h a (xs ++ ys) b) : chain h a xs (headA ys b) := by
  cases ys with
  | nil => simpa using hc
  | cons y ys' => exact ((chain_append h xs a y b ys').1 hc).1

theorem splice_rings_distinct (h : Heap) (s1 s2 f : Nat) (c d u v'' w : List Nat)
    (inv1 : ringInv h s1 (c ++ d))
    (inv2 : ringInv h s2 (u ++ (f :: v'') ++ w))
    (hdisj : List.Disjoint (s1 :: (c ++ d)) (s2 :: (u ++ (f :: v'') ++ w))) :
    ringInv (splice h (headA d s1) f (headA w s2)) s1 (c ++ (f :: v'') ++ d) ∧
    ringInv (splice h (headA d s1) f (headA w s2)) s2 (u ++ w) ∧
    ∀ y, y ∉ s1 :: (c ++ d) → y ∉ s2 :: (u ++ (f :: v'') ++ w) →
      splice h (headA d s1) f (headA w s2) y = h y := by
  obtain ⟨h01, hnd1, hc1⟩ := inv1
  obtain ⟨h02, hnd2, hc2⟩ := inv2
  have hpmem1 : headA d s1 ∈ s1 :: (c ++ d) := by
    cases d with
    | nil => simp
    | cons q d' => simp
  have hppmem1 : lastA s1 c ∈ s1 :: (c ++ d) := by
    rcases List.mem_cons.1 (lastA_mem s1 c) with hq | hq
    · simp [hq]
    · simp [hq]
  have hfmem2 : f ∈ s2 :: (u ++ (f :: v'') ++ w) := by simp
  have hlmem2 : headA w s2 ∈ s2 :: (u ++ (f :: v'') ++ w) := by
    cases w with
    | nil => simp
    | cons l0 w' => simp
  have hpfmem2 : lastA s2 u ∈ s2 :: (u ++ (f :: v'') ++ w) := by
    rcases List.mem_cons.1 (lastA_mem s2 u) with hq | hq
    · simp [hq]
    · simp [hq]
  have hplmem2 : lastA f v'' ∈ s2 :: (u ++ (f :: v'') ++ w) := by
    have := lastA_mem f v''
    simp only [List.mem_cons, List.mem_append] at this ⊢
    tauto
  have hcross : ∀ y ∈ s1 :: (c ++ d), ∀ z ∈ s2 :: (u ++ (f :: v'') ++ w),
      ¬ (y = z) := fun y hy z hz hq => hdisj hy (hq ▸ hz)
  have hcross' : ∀ z ∈ s2 :: (u ++ (f :: v'') ++ w), ∀ y ∈ s1 :: (c ++ d),
      ¬ (z = y) := fun z hz y hy hq => hdisj hy (hq ▸ hz)
  have hmemc : ∀ y ∈ c, y ∈ s1 :: (c ++ d) := fun y hy => by simp [hy]
  have hmemd : ∀ y ∈ d, y ∈ s1 :: (c ++ d) := fun y hy => by simp [hy]
  have hmemu : ∀ y ∈ u, y ∈ s2 :: (u ++ (f :: v'') ++ w) := fun y hy => by simp [hy]
  have hmemv : ∀ y ∈ f :: v'', y ∈ s2 :: (u ++ (f :: v'') ++ w) := fun y hy => by
    simp only [List.mem_cons, List.mem_append] at hy ⊢
    tauto
  have hmemw : ∀ y ∈ w, y ∈ s2 :: (u ++ (f :: v'') ++ w) := fun y hy => by simp [hy]
  have hvE : ∀ y ∈ f :: v'', y ∈ u ++ (f :: v'') ++ w := fun y hy => by
    simp only [List.mem_append]
    exact Or.inl (Or.inr hy)
  have huE : ∀ y ∈ u, y ∈ u ++ (f :: v'') ++ w := fun y hy => by
    simp only [List.mem_append]
    exact Or.inl (Or.inl hy)
  have hwE : ∀ y ∈ w, y ∈ u ++ (f :: v'') ++ w := fun y hy => by
    simp only [List.mem_append]
    exact Or.inr hy
  have hc2' : chain h s2 (u ++ f :: (v'' ++ w)) s2 := by
    have hassoc : u ++ (f :: v'') ++ w = u ++ f :: (v'' ++ w) := by simp
    rwa [hassoc] at hc2
  obtain ⟨A2, B2⟩ := (chain_append h u s2 f s2 (v'' ++ w)).1 hc2'
  have hfprev : (h f).prev = lastA s2 u := chain_prev_of h s2 f u A2
  have hlprev : (h (headA w s2)).prev = lastA f v'' := chain_mid_prev h f s2 v'' w B2
  have hpprev : (h (headA d s1)).prev = lastA s1 c := chain_mid_prev h s1 s1 c d hc1
  have hrtp : (h ((h (headA d s1)).next)).prev = headA d s1 :=
    ring_next_prev h s1 (c ++ d) hc1 _ hpmem1
  have hpfn : (h (lastA s2 u)).next = f := by
    have := ring_prev_next h s2 (u ++ (f :: v'') ++ w) hc2 f hfmem2
    rwa [hfprev] at this
  have hpln : (h (lastA f v'')).next = headA w s2 := by
    have := ring_prev_next h s2 (u ++ (f :: v'') ++ w) hc2 (headA w s2) hlmem2
    rwa [hlprev] at this
  have hnd2e : (u ++ (f :: v'') ++ w).Nodup := (List.nodup_cons.1 hnd2).2
  have hs2e : s2 ∉ u ++ (f :: v'') ++ w := (List.nodup_cons.1 hnd2).1
  have hd_uv_w : List.Disjoint (u ++ (f :: v'')) w :=
    List.disjoint_of_nodup_append hnd2e
  have hnd_uv : (u ++ (f :: v'')).Nodup := (List.nodup_append.1 hnd2e).1
  have hndw : w.Nodup := (List.nodup_append.1 hnd2e).2.1
  have hd_u_v : List.Disjoint u (f :: v'') := List.disjoint_of_nodup_append hnd_uv
  have hndv : (f :: v'').Nodup := (List.nodup_append.1 hnd_uv).2.1
  have hndu : u.Nodup := (List.nodup_append.1 hnd_uv).1
  have hnd1e : (c ++ d).Nodup := (List.nodup_cons.1 hnd1).2
  have hs1e : s1 ∉ c ++ d := (List.nodup_cons.1 hnd1).1
  have hd_c_d : List.Disjoint c d := List.disjoint_of_nodup_append hnd1e
  have hfl : ¬ (f = headA w s2) := by
    cases w with
    | nil =>
        intro hq
        exact hs2e (by rw [← show f = s2 from hq]; simp)
    | cons l0 w' =>
        intro hq
        exact hd_uv_w (show f ∈ u ++ (f :: v'') by simp)
          (show f ∈ l0 :: w' by rw [hq]; simp)
  have hplpf : ¬ (lastA f v'' = lastA s2 u) := by
    have h1 : lastA f v'' ∈ f :: v'' := lastA_mem f v''
    have h2 : lastA s2 u ∈ s2 :: u := lastA_mem s2 u
    intro hq
    rcases List.mem_cons.1 h2 with hq2 | hq2
    · refine hs2e ?_
      have h3 : lastA f v'' = s2 := hq.trans hq2
      rw [← h3]
      simp only [List.mem_append, List.mem_cons] at h1 ⊢
      tauto
    · exact hd_u_v (hq ▸ hq2 : lastA s2 u ∈ u) (hq ▸ h1)
  have hpfpl : ¬ (lastA s2 u = lastA f v'') := fun hq => hplpf hq.symm
  have hvpf : ∀ y ∈ f :: v'', ¬ (y = lastA s2 u) := by
    intro y hy hq
    rcases List.mem_cons.1 (lastA_mem s2 u) with hq2 | hq2
    · have h3 : y = s2 := hq.trans hq2
      subst h3
      exact hs2e (hvE y hy)
    · exact hd_u_v hq2 (hq ▸ hy)
  have hvl : ∀ y ∈ f :: v'', ¬ (y = headA w s2) := by
    intro y hy hq
    cases w with
    | nil =>
        have h3 : y = s2 := by simpa using hq
        subst h3
        exact hs2e (hvE y hy)
    | cons l0 w' =>
        have h3 : y = l0 := by simpa using hq
        exact hd_uv_w
          (show y ∈ u ++ (f :: v'') by
            simp only [List.mem_append]
            exact Or.inr hy)
          (by rw [h3]; simp)
  have hupl : ∀ y ∈ s2 :: u, ¬ (y = lastA f v'') := by
    intro y hy hq
    have h1 : lastA f v'' ∈ f :: v'' := lastA_mem f v''
    rcases List.mem_cons.1 hy with rfl | hy'
    · rw [← hq] at h1
      exact hs2e (hvE y h1)
    · exact hd_u_v hy' (hq ▸ h1)
  have hwpl : ∀ y ∈ w, ¬ (y = lastA f v'') := by
    intro y hy hq
    have h1 : lastA f v'' ∈ f :: v'' := lastA_mem f v''
    rw [← hq] at h1
    exact hd_uv_w (by simp only [List.mem_append]; exact Or.inr h1) hy
  have hwpf : ∀ y ∈ w, ¬ (y = lastA s2 u) := by
    intro y hy hq
    rcases List.mem_cons.1 (lastA_mem s2 u) with hq2 | hq2
    · have h3 : y = s2 := hq.trans hq2
      subst h3
      exact hs2e (hwE y hy)
    · exact hd_uv_w (by simp only [List.mem_append]; exact Or.inl (hq ▸ hq2)) hy
  have hwf : ∀ y ∈ w, ¬ (y = f) := by
    intro y hy hq
    exact hd_uv_w (show f ∈ u ++ (f :: v'') by simp) (hq ▸ hy)
  have huf : ∀ y ∈ u, ¬ (y = f) := fun y hy hq => hd_u_v hy (by simp [hq])
  have hus2 : ∀ y ∈ u, ¬ (y = s2) := by
    intro y hy hq
    subst hq
    exact hs2e (huE y hy)
  have hws2 : ∀ y ∈ w, ¬ (y = s2) := by
    intro y hy hq
    subst hq
    exact hs2e (hwE y hy)
  have hul : ∀ y ∈ u, ¬ (y = headA w s2) := by
    intro y hy hq
    cases w with
    | nil => exact hus2 y hy (by simpa using hq)
    | cons l0 w' =>
        have h3 : y = l0 := by simpa using hq
        exact hd_uv_w (by simp only [List.mem_append]; exact Or.inl hy)
          (by rw [h3]; simp)
  have hcp : ∀ y ∈ c, ¬ (y = headA d s1) := by
    intro y hy hq
    cases d with
    | nil =>
        have h3 : y = s1 := by simpa using hq
        exact hs1e (h3 ▸ (by simp [hy]))
    | cons q d' =>
        have h3 : y = q := by simpa using hq
        exact hd_c_d hy (by rw [h3]; simp)
  have hdpp : ∀ y ∈ d, ¬ (y = lastA s1 c) := by
    intro y hy hq
    rcases List.mem_cons.1 (lastA_mem s1 c) with hq2 | hq2
    · exact hs1e ((hq.trans hq2) ▸ (by simp [hy]))
    · exact hd_c_d (hq ▸ hq2) hy
  have hpl' : ¬ (headA d s1 = headA w s2) := hcross _ hpmem1 _ hlmem2
  have hfp : ¬ (f = headA d s1) := hcross' _ hfmem2 _ hpmem1
  have hnorm := splice_norm h (headA d s1) (lastA s1 c) f (lastA s2 u)
    (lastA f v'') (headA w s2) hrtp hlprev hpln hfprev hpfn hpprev hfl hpl' hfp
  rw [hnorm]
  have A1 : chain h s1 c (headA d s1) := by
    cases d with
    | nil => simpa using hc1
    | cons q d' => exact ((chain_append h c s1 q s1 d').1 hc1).1
  have B2v : chain h f v'' (headA w s2) := by
    cases w with
    | nil => simpa using B2
    | cons l0 w' => exact ((chain_append h v'' f l0 s2 w').1 B2).1
  have hndsc : (s1 :: c).Nodup := by
    refine List.nodup_cons.2 ⟨fun hq => hs1e (by simp [hq]), ?_⟩
    exact (List.nodup_append.1 hnd1e).1
  refine ⟨⟨?_, ?_, ?_⟩, ⟨?_, ?_, ?_⟩, ?_⟩
  · -- 0 not in the new destination ring
    intro hmem
    have hsplit : (0 = s1 ∨ 0 ∈ c ∨ 0 ∈ d) ∨ (0 = f ∨ 0 ∈ v'') := by
      simp only [List.mem_cons, List.mem_append] at hmem
      tauto
    rcases hsplit with hq | hq
    · exact h01 (by simp only [List.mem_cons, List.mem_append]; tauto)
    · exact h02 (by simp only [List.mem_cons, List.mem_append]; tauto)
  · -- the new destination ring has no duplicates
    have hperm : List.Perm (c ++ (f :: v'') ++ d) ((c ++ d) ++ (f :: v'')) := by
      have e1 : c ++ (f :: v'') ++ d = c ++ ((f :: v'') ++ d) := by simp
      have e2 : c ++ (d ++ (f :: v'')) = (c ++ d) ++ (f :: v'') := by simp
      rw [e1, ← e2]
      exact (List.perm_append_comm).append_left c
    rw [(hperm.cons s1).nodup_iff]
    rw [show s1 :: ((c ++ d) ++ (f :: v'')) = (s1 :: (c ++ d)) ++ (f :: v'')
      from rfl]
    refine List.Nodup.append hnd1 hndv ?_
    intro z hz hz'
    exact hcross z hz z (hmemv z hz') rfl
  · -- the new destination chain
    rw [show c ++ (f :: v'') ++ d = c ++ f :: (v'' ++ d) by simp]
    rw [chain_append]
    constructor
    · refine chain_retarget h _ s1 c (headA d s1) f A1 hndsc ?_ ?_ ?_ ?_
      · rw [spliceN_next]
        simp
      · rw [spliceN_prev]
        simp [hfp]
      · intro y hy hyne
        have hyR1 : y ∈ s1 :: (c ++ d) := by
          rcases List.mem_cons.1 hy with hq | hq
          · simp [hq]
          · exact hmemc y hq
        rw [spliceN_next]
        simp [hyne, hcross y hyR1 _ hplmem2, hcross y hyR1 _ hpfmem2]
      · intro y hy
        have hyR1 : y ∈ s1 :: (c ++ d) := hmemc y hy
        rw [spliceN_prev]
        simp [hcp y hy, hcross y hyR1 _ hfmem2, hcross y hyR1 _ hlmem2]
    · cases d with
      | nil =>
          rw [show v'' ++ ([] : List Nat) = v'' by simp]
          refine chain_retarget h _ f v'' (headA w s2) (headA ([] : List Nat) s1)
            B2v hndv ?_ ?_ ?_ ?_
          · rw [spliceN_next]
            simp [hcross' _ hplmem2 _ hppmem1]
          · rw [spliceN_prev]
            simp
          · intro y hy hyne
            rw [spliceN_next]
            simp [hyne, hvpf y hy, hcross' _ (hmemv y hy) _ hppmem1]
          · intro y hy
            have hyv : y ∈ f :: v'' := by simp [hy]
            have hyf : ¬ (y = f) := fun hq => (List.nodup_cons.1 hndv).1 (hq ▸ hy)
            have hys1 : ¬ (y = s1) := by
              simpa using hcross' _ (hmemv y hyv) _ hpmem1
            rw [spliceN_prev]
            simp [hvl y hyv, hys1, hyf]
      | cons q d' =>
          have B1 : chain h q d' s1 := ((chain_append h c s1 q s1 d').1 hc1).2
          rw [chain_append]
          constructor
          · refine chain_retarget h _ f v'' (headA w s2) (headA (q :: d') s1)
              B2v hndv ?_ ?_ ?_ ?_
            · rw [spliceN_next]
              simp [hcross' _ hplmem2 _ hppmem1]
            · rw [spliceN_prev]
              simp
            · intro y hy hyne
              rw [spliceN_next]
              simp [hyne, hvpf y hy, hcross' _ (hmemv y hy) _ hppmem1]
            · intro y hy
              have hyv : y ∈ f :: v'' := by simp [hy]
              have hyf : ¬ (y = f) := fun hq => (List.nodup_cons.1 hndv).1 (hq ▸ hy)
              have hyq : ¬ (y = q) := by
                simpa using hcross' _ (hmemv y hyv) _ hpmem1
              rw [spliceN_prev]
              simp [hvl y hyv, hyq, hyf]
          · have hqd : q ∈ q :: d' := by simp
            refine chain_congr h _ q s1 d' ?_ ?_ ?_ ?_ B1
            · rw [spliceN_next]
              simp [hdpp q (by simp), hcross _ (hmemd q (List.mem_cons_self q d')) _ hplmem2,
                hcross _ (hmemd q (List.mem_cons_self q d')) _ hpfmem2]
            · rw [spliceN_prev]
              have hs1q : ¬ (s1 = q) := by
                intro hq'
                refine hs1e ?_
                rw [hq']
                simp
              simp [hs1q, hcross s1 (List.mem_cons_self s1 _) _ hfmem2,
                hcross s1 (List.mem_cons_self s1 _) _ hlmem2]
            · intro y hy
              rw [spliceN_next]
              simp [hdpp y (by simp [hy]), hcross _ (hmemd y (List.mem_cons_of_mem q hy)) _ hplmem2,
                hcross _ (hmemd y (List.mem_cons_of_mem q hy)) _ hpfmem2]
            · intro y hy
              have hndqd : (q :: d').Nodup := (List.nodup_append.1 hnd1e).2.1
              have hyq : ¬ (y = q) := fun hq' => (List.nodup_cons.1 hndqd).1 (hq' ▸ hy)
              rw [spliceN_prev]
              simp [hyq, hcross _ (hmemd y (List.mem_cons_of_mem q hy)) _ hfmem2,
                hcross _ (hmemd y (List.mem_cons_of_mem q hy)) _ hlmem2]
  · -- 0 not in the new source ring
    intro hmem
    refine h02 ?_
    rcases List.mem_cons.1 hmem with hq | hq
    · simp [hq]
    · rcases List.mem_append.1 hq with hq' | hq'
      · simp only [List.mem_cons, List.mem_append]
        tauto
      · simp only [List.mem_cons, List.mem_append]
        tauto
  · -- the new source ring has no duplicates
    have hsub2 : List.Sublist (s2 :: (u ++ w)) (s2 :: (u ++ (f :: v'') ++ w)) := by
      refine List.Sublist.cons₂ s2 ?_
      have h1 : List.Sublist w ((f :: v'') ++ w) := List.sublist_append_right _ _
      have h2 : List.Sublist (u ++ w) (u ++ ((f :: v'') ++ w)) := h1.append_left u
      rwa [show u ++ ((f :: v'') ++ w) = u ++ (f :: v'') ++ w by simp] at h2
    exact hnd2.sublist hsub2
  · -- the new source chain
    cases w with
    | nil =>
        rw [show u ++ ([] : List Nat) = u by simp]
        have hndsu : (s2 :: u).Nodup := by
          refine List.nodup_cons.2 ⟨fun hq => hs2e (huE s2 hq), hndu⟩
        refine chain_retarget h _ s2 u f s2 A2 hndsu ?_ ?_ ?_ ?_
        · rw [spliceN_next]
          simp [hcross' _ hpfmem2 _ hppmem1, hpfpl]
        · rw [spliceN_prev]
          have hs2p : ¬ (s2 = headA d s1) := hcross' _ (by simp) _ hpmem1
          have hs2f : ¬ (s2 = f) := by
            intro hq
            exact hs2e (by rw [hq]; simp)
          simp [hs2p, hs2f]
        · intro y hy hyne
          rw [spliceN_next]
          have hyR2 : y ∈ s2 :: (u ++ (f :: v'') ++ []) := by
            rcases List.mem_cons.1 hy with hq | hq
            · simp [hq]
            · exact hmemu y hq
          simp [hyne, hupl y hy, hcross' _ hyR2 _ hppmem1]
        · intro y hy
          rw [spliceN_prev]
          simp [hul y hy, huf y hy, hus2 y hy,
            hcross' _ (hmemu y hy) _ hpmem1]
    | cons l0 w' =>
        have B2w : chain h l0 w' s2 := ((chain_append h v'' f l0 s2 w').1 B2).2
        have hndsu : (s2 :: u).Nodup := by
          refine List.nodup_cons.2 ⟨fun hq => hs2e (huE s2 hq), hndu⟩
        rw [chain_append]
        constructor
        · refine chain_retarget h _ s2 u f l0 A2 hndsu ?_ ?_ ?_ ?_
          · rw [spliceN_next]
            simp [hcross' _ hpfmem2 _ hppmem1, hpfpl]
          · rw [spliceN_prev]
            have hl0p : ¬ (l0 = headA d s1) := hcross' _ (hmemw l0 (by simp)) _ hpmem1
            have hl0f : ¬ (l0 = f) := by
              intro hq
              exact hd_uv_w (show f ∈ u ++ (f :: v'') by simp) (hq ▸ (by simp))
            simp [hl0p, hl0f]
          · intro y hy hyne
            rw [spliceN_next]
            have hyR2 : y ∈ s2 :: (u ++ (f :: v'') ++ l0 :: w') := by
              rcases List.mem_cons.1 hy with hq | hq
              · simp [hq]
              · exact hmemu y hq
            simp [hyne, hupl y hy, hcross' _ hyR2 _ hppmem1]
          · intro y hy
            have hyl0 : ¬ (y = l0) := by simpa using hul y hy
            rw [spliceN_prev]
            simp [hyl0, huf y hy,
              hcross' _ (hmemu y hy) _ hpmem1]
        · refine chain_congr h _ l0 s2 w' ?_ ?_ ?_ ?_ B2w
          · rw [spliceN_next]
            simp [hwpl l0 (by simp), hwpf l0 (by simp),
              hcross' _ (hmemw l0 (by simp)) _ hppmem1]
          · rw [spliceN_prev]
            have hs2f : ¬ (s2 = f) := by
              intro hq
              exact hs2e (by rw [hq]; simp)
            have hs2l0 : ¬ (s2 = l0) := by
              intro hq
              exact hs2e (by rw [hq]; simp)
            simp [hs2f, hs2l0, hcross' s2 (List.mem_cons_self s2 _) _ hpmem1]
          · intro y hy
            rw [spliceN_next]
            simp [hwpl y (by simp [hy]), hwpf y (by simp [hy]),
              hcross' _ (hmemw y (by simp [hy])) _ hppmem1]
          · intro y hy
            have hyl0 : ¬ (y = l0) := by
              intro hq
              exact (List.nodup_cons.1 hndw).1 (hq ▸ hy)
            rw [spliceN_prev]
            simp [hyl0, hwf y (by simp [hy]),
              hcross' _ (hmemw y (by simp [hy])) _ hpmem1]
  · -- untouched nodes
    intro y hy1 hy2
    have hn1 : ¬ (y = lastA s1 c) := fun hq => hy1 (hq ▸ hppmem1)
    have hn2 : ¬ (y = lastA f v'') := fun hq => hy2 (hq ▸ hplmem2)
    have hn3 : ¬ (y = lastA s2 u) := fun hq => hy2 (hq ▸ hpfmem2)
    have hn4 : ¬ (y = headA d s1) := fun hq => hy1 (hq ▸ hpmem1)
    have hn5 : ¬ (y = f) := fun hq => hy2 (hq ▸ hfmem2)
    have hn6 : ¬ (y = headA w s2) := fun hq => hy2 (hq ▸ hlmem2)
    apply Link.ext2
    · rw [spliceN_prev]
      simp [hn4, hn5, hn6]
    · rw [spliceN_next]
      simp [hn1, hn2, hn3]

/-- Same-list `splice`: moving the nonempty range `f :: v''` so that it comes
immediately before a position located after the range (`headA w2 s`, with
`w1` the nodes strictly between the range and the position).  Covers
`position = last` (`w1 = []`), where the operation rewires nothing. -/
theorem splice_same_after (h : Heap) (s f : Nat) (u v'' w1 w2 : List Nat)
    (inv : ringInv h s (u ++ (f :: v'') ++ w1 ++ w2)) :
    ringInv (splice h (headA w2 s) f (headA (w1 ++ w2) s)) s
      (u ++ w1 ++ (f :: v'') ++ w2) ∧
    ∀ y, y ∉ s :: (u ++ (f :: v'') ++ w1 ++ w2) →
      splice h (headA w2 s) f (headA (w1 ++ w2) s) y = h y := by
  obtain ⟨h0, hnd, hc⟩ := inv
  have hnde : (u ++ (f :: v'') ++ w1 ++ w2).Nodup := (List.nodup_cons.1 hnd).2
  have hse : s ∉ u ++ (f :: v'') ++ w1 ++ w2 := (List.nodup_cons.1 hnd).1
  have d1 : List.Disjoint (u ++ (f :: v'') ++ w1) w2 :=
    List.disjoint_of_nodup_append hnde
  have n1 : (u ++ (f :: v'') ++ w1).Nodup := (List.nodup_append.1 hnde).1
  have ndw2 : w2.Nodup := (List.nodup_append.1 hnde).2.1
  have d2 : List.Disjoint (u ++ (f :: v'')) w1 := List.disjoint_of_nodup_append n1
  have n2 : (u ++ (f :: v'')).Nodup := (List.nodup_append.1 n1).1
  have ndw1 : w1.Nodup := (List.nodup_append.1 n1).2.1
  have d3 : List.Disjoint u (f :: v'') := List.disjoint_of_nodup_append n2
  have ndu : u.Nodup := (List.nodup_append.1 n2).1
  have ndv : (f :: v'').Nodup := (List.nodup_append.1 n2).2.1
  have huE : ∀ y ∈ u, y ∈ u ++ (f :: v'') ++ w1 ++ w2 := fun y hy => by
    simp only [List.mem_append]
    exact Or.inl (Or.inl (Or.inl hy))
  have hvE : ∀ y ∈ f :: v'', y ∈ u ++ (f :: v'') ++ w1 ++ w2 := fun y hy => by
    simp only [List.mem_append]
    exact Or.inl (Or.inl (Or.inr hy))
  have hw1E : ∀ y ∈ w1, y ∈ u ++ (f :: v'') ++ w1 ++ w2 := fun y hy => by
    simp only [List.mem_append]
    exact Or.inl (Or.inr hy)
  have hw2E : ∀ y ∈ w2, y ∈ u ++ (f :: v'') ++ w1 ++ w2 := fun y hy => by
    simp only [List.mem_append]
    exact Or.inr hy
  have hu_s : ∀ y ∈ u, ¬ (y = s) := fun y hy hq => hse (hq ▸ huE y hy)
  have hv_s : ∀ y ∈ f :: v'', ¬ (y = s) := fun y hy hq => hse (hq ▸ hvE y hy)
  have hw1_s : ∀ y ∈ w1, ¬ (y = s) := fun y hy hq => hse (hq ▸ hw1E y hy)
  have hw2_s : ∀ y ∈ w2, ¬ (y = s) := fun y hy hq => hse (hq ▸ hw2E y hy)
  have hu_v : ∀ y ∈ u, ∀ z ∈ f :: v'', ¬ (y = z) :=
    fun y hy z hz hq => d3 hy (hq ▸ hz)
  have hu_w1 : ∀ y ∈ u, ∀ z ∈ w1, ¬ (y = z) := fun y hy z hz hq =>
    d2 (by simp only [List.mem_append]; exact Or.inl hy) (hq ▸ hz)
  have hu_w2 : ∀ y ∈ u, ∀ z ∈ w2, ¬ (y = z) := fun y hy z hz hq =>
    d1 (by simp only [List.mem_append]; exact Or.inl (Or.inl hy)) (hq ▸ hz)
  have hv_w1 : ∀ y ∈ f :: v'', ∀ z ∈ w1, ¬ (y = z) := fun y hy z hz hq =>
    d2 (by simp only [List.mem_append]; exact Or.inr hy) (hq ▸ hz)
  have hv_w2 : ∀ y ∈ f :: v'', ∀ z ∈ w2, ¬ (y = z) := fun y hy z hz hq =>
    d1 (by simp only [List.mem_append]; exact Or.inl (Or.inr hy)) (hq ▸ hz)
  have hw1_w2 : ∀ y ∈ w1, ∀ z ∈ w2, ¬ (y = z) := fun y hy z hz hq =>
    d1 (by simp only [List.mem_append]; exact Or.inr hy) (hq ▸ hz)
  have hcA : chain h s (u ++ f :: (v'' ++ (w1 ++ w2))) s := by
    have e : u ++ (f :: v'') ++ w1 ++ w2 = u ++ f :: (v'' ++ (w1 ++ w2)) := by simp
    rwa [e] at hc
  obtain ⟨A, B⟩ := (chain_append h u s f s (v'' ++ (w1 ++ w2))).1 hcA
  have hfprev : (h f).prev = lastA s u := chain_prev_of h s f u A
  have hpfn : (h (lastA s u)).next = f := by
    have := ring_prev_next h s (u ++ (f :: v'') ++ w1 ++ w2) hc f
      (List.mem_cons_of_mem s (hvE f (by simp)))
    rwa [hfprev] at this
  cases w1 with
  | nil =>
      have hlprev : (h (headA w2 s)).prev = lastA f v'' := by
        exact chain_mid_prev h f s v'' w2 (by simpa using B)
      have hlmem : headA w2 s ∈ s :: (u ++ (f :: v'') ++ [] ++ w2) := by
        cases w2 with
        | nil => simp
        | cons p0 w2' => exact List.mem_cons_of_mem s (hw2E p0 (by simp))
      have hrtl : (h ((h (headA w2 s)).next)).prev = headA w2 s :=
        ring_next_prev h s (u ++ (f :: v'') ++ [] ++ w2) hc _ hlmem
      have hpln : (h (lastA f v'')).next = headA w2 s := by
        have := ring_prev_next h s (u ++ (f :: v'') ++ [] ++ w2) hc _ hlmem
        rwa [hlprev] at this
      have hfl : ¬ (f = headA w2 s) := by
        cases w2 with
        | nil => exact hv_s f (by simp)
        | cons p0 w2' => simpa using hv_w2 f (by simp) p0 (by simp)
      have hid : splice h (headA w2 s) f (headA (([] : List Nat) ++ w2) s) = h := by
        have e : headA (([] : List Nat) ++ w2) s = headA w2 s := rfl
        rw [e]
        exact splice_norm_poslast h f (lastA s u) (lastA f v'') (headA w2 s)
          hrtl hlprev hpln hfprev hpfn hfl
      rw [hid]
      refine ⟨⟨?_, ?_, ?_⟩, fun y hy => rfl⟩
      · intro hmem
        refine h0 ?_
        simp only [List.mem_cons, List.mem_append] at hmem ⊢
        tauto
      · have e : u ++ ([] : List Nat) ++ (f :: v'') ++ w2
            = u ++ (f :: v'') ++ ([] : List Nat) ++ w2 := by simp
        rw [e]
        exact hnd
      · have e : u ++ ([] : List Nat) ++ (f :: v'') ++ w2
            = u ++ (f :: v'') ++ ([] : List Nat) ++ w2 := by simp
        rw [e]
        exact hc
  | cons l0 w1' =>
      obtain ⟨Bv, Bw⟩ := (chain_append h v'' f l0 s (w1' ++ w2)).1 (by
        have e : v'' ++ (l0 :: w1' ++ w2) = v'' ++ l0 :: (w1' ++ w2) := by simp
        rwa [e] at B)
      have Bw1 : chain h l0 w1' (headA w2 s) := chain_take h l0 s w1' w2 Bw
      have hlprev : (h l0).prev = lastA f v'' := chain_prev_of h f l0 v'' Bv
      have hpprev : (h (headA w2 s)).prev = lastA l0 w1' :=
        chain_mid_prev h l0 s w1' w2 Bw
      have hpmem : headA w2 s ∈ s :: (u ++ (f :: v'') ++ (l0 :: w1') ++ w2) := by
        cases w2 with
        | nil => simp
        | cons p0 w2' => exact List.mem_cons_of_mem s (hw2E p0 (by simp))
      have hrtp : (h ((h (headA w2 s)).next)).prev = headA w2 s :=
        ring_next_prev h s (u ++ (f :: v'') ++ (l0 :: w1') ++ w2) hc _ hpmem
      have hpln : (h (lastA f v'')).next = l0 := by
        have := ring_prev_next h s (u ++ (f :: v'') ++ (l0 :: w1') ++ w2) hc l0
          (List.mem_cons_of_mem s (hw1E l0 (by simp)))
        rwa [hlprev] at this
      have hfl : ¬ (f = l0) := hv_w1 f (by simp) l0 (by simp)
      have hpl' : ¬ (headA w2 s = l0) := by
        cases w2 with
        | nil => exact fun hq => hw1_s l0 (by simp) (by simpa using hq.symm)
        | cons p0 w2' =>
            exact fun hq => hw1_w2 l0 (by simp) p0 (by simp) (by simpa using hq.symm)
      have hfp : ¬ (f = headA w2 s) := by
        cases w2 with
        | nil => exact hv_s f (by simp)
        | cons p0 w2' => simpa using hv_w2 f (by simp) p0 (by simp)
      have hmem_pf := lastA_mem s u
      have hmem_pl := lastA_mem f v''
      have hmem_pp := lastA_mem l0 w1'
      have hpf_pp : ¬ (lastA s u = lastA l0 w1') := by
        intro hq
        rcases List.mem_cons.1 hmem_pf with hc1 | hc1
        · exact hw1_s _ hmem_pp (by rw [← hq, hc1])
        · exact hu_w1 _ hc1 _ hmem_pp hq
      have hpf_pl : ¬ (lastA s u = lastA f v'') := by
        intro hq
        rcases List.mem_cons.1 hmem_pf with hc1 | hc1
        · exact hv_s _ hmem_pl (by rw [← hq, hc1])
        · exact hu_v _ hc1 _ hmem_pl hq
      have hpl_pp : ¬ (lastA f v'' = lastA l0 w1') := fun hq =>
        hv_w1 _ hmem_pl _ hmem_pp hq
      have hl : headA ((l0 :: w1') ++ w2) s = l0 := rfl
      rw [hl]
      have hnorm := splice_norm h (headA w2 s) (lastA l0 w1') f (lastA s u)
        (lastA f v'') l0 hrtp hlprev hpln hfprev hpfn hpprev hfl hpl' hfp
      rw [hnorm]
      refine ⟨⟨?_, ?_, ?_⟩, ?_⟩
      · intro hmem
        refine h0 ?_
        simp only [List.mem_cons, List.mem_append] at hmem ⊢
        tauto
      · have hperm : List.Perm (u ++ (l0 :: w1') ++ (f :: v'') ++ w2)
            (u ++ (f :: v'') ++ (l0 :: w1') ++ w2) := by
          have e1 : u ++ (l0 :: w1') ++ (f :: v'') ++ w2
              = u ++ (((l0 :: w1') ++ (f :: v'')) ++ w2) := by simp
          have e2 : u ++ (f :: v'') ++ (l0 :: w1') ++ w2
              = u ++ (((f :: v'') ++ (l0 :: w1')) ++ w2) := by simp
          rw [e1, e2]
          exact ((List.perm_append_comm.append_right w2).append_left u)
        rw [(hperm.cons s).nodup_iff]
        exact hnd
      · rw [show u ++ (l0 :: w1') ++ (f :: v'') ++ w2
            = u ++ l0 :: (w1' ++ f :: (v'' ++ w2)) by simp]
        rw [chain_append]
        constructor
        · -- chain from s through u to l0
          refine chain_retarget h _ s u f l0 A
            (List.nodup_cons.2 ⟨fun hq => hse (huE s hq), ndu⟩) ?_ ?_ ?_ ?_
          · rw [spliceN_next]
            simp [hpf_pp, hpf_pl]
          · rw [spliceN_prev]
            have hl0p : ¬ (l0 = headA w2 s) := fun hq => hpl' hq.symm
            have hl0f : ¬ (l0 = f) := fun hq => hfl hq.symm
            simp [hl0p, hl0f]
          · intro y hy hyne
            rw [spliceN_next]
            have e1 : ¬ (y = lastA l0 w1') := by
              rcases List.mem_cons.1 hy with rfl | hy'
              · exact fun hq => hw1_s _ hmem_pp hq.symm
              · exact fun hq => hu_w1 _ hy' _ hmem_pp hq
            have e2 : ¬ (y = lastA f v'') := by
              rcases List.mem_cons.1 hy with rfl | hy'
              · exact fun hq => hv_s _ hmem_pl hq.symm
              · exact fun hq => hu_v _ hy' _ hmem_pl hq
            simp [hyne, e1, e2]
          · intro y hy
            rw [spliceN_prev]
            have e1 : ¬ (y = headA w2 s) := by
              cases w2 with
              | nil => exact fun hq => hu_s y hy (by simpa using hq)
              | cons p0 w2' =>
                  exact fun hq => hu_w2 y hy p0 (by simp) (by simpa using hq)
            have e2 : ¬ (y = f) := hu_v y hy f (by simp)
            have e3 : ¬ (y = l0) := hu_w1 y hy l0 (by simp)
            simp [e1, e2, e3]
        · rw [chain_append]
          constructor
          · -- chain from l0 through w1' to f
            refine chain_retarget h _ l0 w1' (headA w2 s) f Bw1 ndw1 ?_ ?_ ?_ ?_
            · rw [spliceN_next]
              simp
            · rw [spliceN_prev]
              simp [hfp]
            · intro y hy hyne
              rw [spliceN_next]
              have hyw1 : y ∈ l0 :: w1' := hy
              have e1 : ¬ (y = lastA f v'') := fun hq =>
                hv_w1 _ hmem_pl _ hyw1 hq.symm
              have e2 : ¬ (y = lastA s u) := by
                rcases List.mem_cons.1 hmem_pf with hc1 | hc1
                · exact fun hq => hw1_s _ hyw1 (hq.trans hc1)
                · exact fun hq => hu_w1 _ hc1 _ hyw1 hq.symm
              simp [hyne, e1, e2]
            · intro y hy
              rw [spliceN_prev]
              have hyw1 : y ∈ l0 :: w1' := List.mem_cons_of_mem l0 hy
              have e1 : ¬ (y = headA w2 s) := by
                cases w2 with
                | nil => exact fun hq => hw1_s y hyw1 (by simpa using hq)
                | cons p0 w2' =>
                    exact fun hq => hw1_w2 y hyw1 p0 (by simp) (by simpa using hq)
              have e2 : ¬ (y = f) := fun hq => hv_w1 f (by simp) y hyw1 hq.symm
              have e3 : ¬ (y = l0) := fun hq => (List.nodup_cons.1 ndw1).1 (hq ▸ hy)
              simp [e1, e2, e3]
          · -- chain from f through the range and (possibly) w2 back to s
            cases w2 with
            | nil =>
                rw [show v'' ++ ([] : List Nat) = v'' by simp]
                refine chain_retarget h _ f v'' l0 s Bv ndv ?_ ?_ ?_ ?_
                · rw [spliceN_next]
                  simp [hpl_pp]
                · rw [spliceN_prev]
                  simp
                · intro y hy hyne
                  rw [spliceN_next]
                  have hyv : y ∈ f :: v'' := hy
                  have e1 : ¬ (y = lastA l0 w1') := fun hq =>
                    hv_w1 _ hyv _ hmem_pp hq
                  have e2 : ¬ (y = lastA s u) := by
                    rcases List.mem_cons.1 hmem_pf with hc1 | hc1
                    · exact fun hq => hv_s _ hyv (hq.trans hc1)
                    · exact fun hq => hu_v _ hc1 _ hyv hq.symm
                  simp [hyne, e1, e2]
                · intro y hy
                  rw [spliceN_prev]
                  have hyv : y ∈ f :: v'' := List.mem_cons_of_mem f hy
                  have e1 : ¬ (y = s) := hv_s y hyv
                  have e2 : ¬ (y = f) := fun hq => (List.nodup_cons.1 ndv).1 (hq ▸ hy)
                  have e3 : ¬ (y = l0) := fun hq => hv_w1 y hyv l0 (by simp) hq
                  simp [e1, e2, e3]
            | cons p0 w2' =>
                rw [chain_append]
                constructor
                · refine chain_retarget h _ f v'' l0 p0 Bv ndv ?_ ?_ ?_ ?_
                  · rw [spliceN_next]
                    simp [hpl_pp]
                  · rw [spliceN_prev]
                    simp
                  · intro y hy hyne
                    rw [spliceN_next]
                    have hyv : y ∈ f :: v'' := hy
                    have e1 : ¬ (y = lastA l0 w1') := fun hq =>
                      hv_w1 _ hyv _ hmem_pp hq
                    have e2 : ¬ (y = lastA s u) := by
                      rcases List.mem_cons.1 hmem_pf with hc1 | hc1
                      · exact fun hq => hv_s _ hyv (hq.trans hc1)
                      · exact fun hq => hu_v _ hc1 _ hyv hq.symm
                    simp [hyne, e1, e2]
                  · intro y hy
                    rw [spliceN_prev]
                    have hyv : y ∈ f :: v'' := List.mem_cons_of_mem f hy
                    have e1 : ¬ (y = p0) := fun hq => hv_w2 y hyv p0 (by simp) hq
                    have e2 : ¬ (y = f) := fun hq => (List.nodup_cons.1 ndv).1 (hq ▸ hy)
                    have e3 : ¬ (y = l0) := fun hq => hv_w1 y hyv l0 (by simp) hq
                    simp [e1, e2, e3]
                · have Bw2 : chain h p0 w2' s :=
                    ((chain_append h w1' l0 p0 s w2').1 Bw).2
                  refine chain_congr h _ p0 s w2' ?_ ?_ ?_ ?_ Bw2
                  · rw [spliceN_next]
                    have e1 : ¬ (p0 = lastA l0 w1') := fun hq =>
                      hw1_w2 _ hmem_pp p0 (by simp) hq.symm
                    have e2 : ¬ (p0 = lastA f v'') := fun hq =>
                      hv_w2 _ hmem_pl p0 (by simp) hq.symm
                    have e3 : ¬ (p0 = lastA s u) := by
                      rcases List.mem_cons.1 hmem_pf with hc1 | hc1
                      · exact fun hq => hw2_s p0 (by simp) (hq.trans hc1)
                      · exact fun hq => hu_w2 _ hc1 p0 (by simp) hq.symm
                    simp [e1, e2, e3]
                  · rw [spliceN_prev]
                    have e1 : ¬ (s = p0) := fun hq => hw2_s p0 (by simp) hq.symm
                    have e2 : ¬ (s = f) := fun hq => hv_s f (by simp) hq.symm
                    have e3 : ¬ (s = l0) := fun hq => hw1_s l0 (by simp) hq.symm
                    simp [e1, e2, e3]
                  · intro y hy
                    rw [spliceN_next]
                    have hyw2 : y ∈ p0 :: w2' := List.mem_cons_of_mem p0 hy
                    have e1 : ¬ (y = lastA l0 w1') := fun hq =>
                      hw1_w2 _ hmem_pp _ hyw2 hq.symm
                    have e2 : ¬ (y = lastA f v'') := fun hq =>
                      hv_w2 _ hmem_pl _ hyw2 hq.symm
                    have e3 : ¬ (y = lastA s u) := by
                      rcases List.mem_cons.1 hmem_pf with hc1 | hc1
                      · exact fun hq => hw2_s _ hyw2 (hq.trans hc1)
                      · exact fun hq => hu_w2 _ hc1 _ hyw2 hq.symm
                    simp [e1, e2, e3]
                  · intro y hy
                    rw [spliceN_prev]
                    have hyw2 : y ∈ p0 :: w2' := List.mem_cons_of_mem p0 hy
                    have e1 : ¬ (y = p0) := fun hq =>
                      (List.nodup_cons.1 ndw2).1 (hq ▸ hy)
                    have e2 : ¬ (y = f) := fun hq => hv_w2 f (by simp) _ hyw2 hq.symm
                    have e3 : ¬ (y = l0) := fun hq => hw1_w2 l0 (by simp) _ hyw2 hq.symm
                    simp [e1, e2, e3]
      · -- untouched nodes
        intro y hy
        have hyE : ∀ z, z ∈ u ++ (f :: v'') ++ (l0 :: w1') ++ w2 → ¬ (y = z) :=
          fun z hz hq => hy (by
            rw [hq]
            exact List.mem_cons_of_mem s hz)
        have hys : ¬ (y = s) := fun hq => hy (by simp [hq])
        have hn1 : ¬ (y = lastA l0 w1') := hyE _ (hw1E _ hmem_pp)
        have hn2 : ¬ (y = lastA f v'') := hyE _ (hvE _ hmem_pl)
        have hn3 : ¬ (y = lastA s u) := by
          rcases List.mem_cons.1 hmem_pf with hc1 | hc1
          · exact fun hq => hys (hq.trans hc1)
          · exact hyE _ (huE _ hc1)
        have hn4 : ¬ (y = headA w2 s) := by
          cases w2 with
          | nil => exact fun hq => hys (by simpa using hq)
          | cons p0 w2' => exact fun hq => hyE p0 (hw2E p0 (by simp)) (by simpa using hq)
        have hn5 : ¬ (y = f) := hyE _ (hvE f (by simp))
        have hn6 : ¬ (y = l0) := hyE _ (hw1E l0 (by simp))
        apply Link.ext2
        · rw [spliceN_prev]
          simp [hn4, hn5, hn6]
        · rw [spliceN_next]
          simp [hn1, hn2, hn3]

/-- Same-list `splice`: moving the nonempty range `f :: v''` so that it comes
immediately before position `q`, which lies before the range (`c2'` the nodes
strictly between the position and the range). -/
theorem splice_same_before (h : Heap) (s f q : Nat) (c1 c2' v'' w : List Nat)
    (inv : ringInv h s (c1 ++ q :: (c2' ++ (f :: v'') ++ w))) :
    ringInv (splice h q f (headA w s)) s (c1 ++ (f :: v'') ++ q :: (c2' ++ w)) ∧
    ∀ y, y ∉ s :: (c1 ++ q :: (c2' ++ (f :: v'') ++ w)) →
      splice h q f (headA w s) y = h y := by
  obtain ⟨h0, hnd, hc⟩ := inv
  have hnde : (c1 ++ q :: (c2' ++ (f :: v'') ++ w)).Nodup := (List.nodup_cons.1 hnd).2
  have hse : s ∉ c1 ++ q :: (c2' ++ (f :: v'') ++ w) := (List.nodup_cons.1 hnd).1
  have d_c1 : List.Disjoint c1 (q :: (c2' ++ (f :: v'') ++ w)) :=
    List.disjoint_of_nodup_append hnde
  have ndc1 : c1.Nodup := (List.nodup_append.1 hnde).1
  have ndrest : (q :: (c2' ++ (f :: v'') ++ w)).Nodup := (List.nodup_append.1 hnde).2.1
  have hq_rest : q ∉ c2' ++ (f :: v'') ++ w := (List.nodup_cons.1 ndrest).1
  have ndcvw : (c2' ++ (f :: v'') ++ w).Nodup := (List.nodup_cons.1 ndrest).2
  have d_cv_w : List.Disjoint (c2' ++ (f :: v'')) w := List.disjoint_of_nodup_append ndcvw
  have ndcv : (c2' ++ (f :: v'')).Nodup := (List.nodup_append.1 ndcvw).1
  have ndw : w.Nodup := (List.nodup_append.1 ndcvw).2.1
  have d_c2_v : List.Disjoint c2' (f :: v'') := List.disjoint_of_nodup_append ndcv
  have ndc2 : c2'.Nodup := (List.nodup_append.1 ndcv).1
  have ndv : (f :: v'').Nodup := (List.nodup_append.1 ndcv).2.1
  -- embeddings into the element list
  have hc1E : ∀ y ∈ c1, y ∈ c1 ++ q :: (c2' ++ (f :: v'') ++ w) := fun y hy => by
    simp only [List.mem_append]
    exact Or.inl hy
  have hqE : q ∈ c1 ++ q :: (c2' ++ (f :: v'') ++ w) := by simp
  have hc2E : ∀ y ∈ c2', y ∈ c1 ++ q :: (c2' ++ (f :: v'') ++ w) := fun y hy => by
    simp only [List.mem_append, List.mem_cons] at hy ⊢
    tauto
  have hvE : ∀ y ∈ f :: v'', y ∈ c1 ++ q :: (c2' ++ (f :: v'') ++ w) := fun y hy => by
    simp only [List.mem_append, List.mem_cons] at hy ⊢
    tauto
  have hwE : ∀ y ∈ w, y ∈ c1 ++ q :: (c2' ++ (f :: v'') ++ w) := fun y hy => by
    simp only [List.mem_append, List.mem_cons] at hy ⊢
    tauto
  -- segment-vs-segment address distinctions
  have hc1_s : ∀ y ∈ c1, ¬ (y = s) := fun y hy hq' => hse (hq' ▸ hc1E y hy)
  have hq_s : ¬ (q = s) := fun hq' => hse (hq' ▸ hqE)
  have hc2_s : ∀ y ∈ c2', ¬ (y = s) := fun y hy hq' => hse (hq' ▸ hc2E y hy)
  have hv_s : ∀ y ∈ f :: v'', ¬ (y = s) := fun y hy hq' => hse (hq' ▸ hvE y hy)
  have hw_s : ∀ y ∈ w, ¬ (y = s) := fun y hy hq' => hse (hq' ▸ hwE y hy)
  have hc1_q : ∀ y ∈ c1, ¬ (y = q) := fun y hy hq' =>
    d_c1 hy (hq' ▸ (by simp : q ∈ q :: (c2' ++ (f :: v'') ++ w)))
  have hc1_c2 : ∀ y ∈ c1, ∀ z ∈ c2', ¬ (y = z) := fun y hy z hz hq' =>
    d_c1 hy (hq' ▸ (show z ∈ q :: (c2' ++ (f :: v'') ++ w) by
      simp only [List.mem_cons, List.mem_append] at hz ⊢
      tauto))
  have hc1_v : ∀ y ∈ c1, ∀ z ∈ f :: v'', ¬ (y = z) := fun y hy z hz hq' =>
    d_c1 hy (hq' ▸ (show z ∈ q :: (c2' ++ (f :: v'') ++ w) by
      simp only [List.mem_cons, List.mem_append] at hz ⊢
      tauto))
  have hc1_w : ∀ y ∈ c1, ∀ z ∈ w, ¬ (y = z) := fun y hy z hz hq' =>
    d_c1 hy (hq' ▸ (show z ∈ q :: (c2' ++ (f :: v'') ++ w) by
      simp only [List.mem_cons, List.mem_append] at hz ⊢
      tauto))
  have hq_c2 : ∀ z ∈ c2', ¬ (q = z) := fun z hz hq' =>
    hq_rest (hq' ▸ (show z ∈ c2' ++ (f :: v'') ++ w by
      simp only [List.mem_append, List.mem_cons] at hz ⊢
      tauto))
  have hq_v : ∀ z ∈ f :: v'', ¬ (q = z) := fun z hz hq' =>
    hq_rest (hq' ▸ (show z ∈ c2' ++ (f :: v'') ++ w by
      simp only [List.mem_append, List.mem_cons] at hz ⊢
      tauto))
  have hq_w : ∀ z ∈ w, ¬ (q = z) := fun z hz hq' =>
    hq_rest (hq' ▸ (show z ∈ c2' ++ (f :: v'') ++ w by
      simp only [List.mem_append, List.mem_cons] at hz ⊢
      tauto))
  have hc2_v : ∀ y ∈ c2', ∀ z ∈ f :: v'', ¬ (y = z) := fun y hy z hz hq' =>
    d_c2_v hy (hq' ▸ hz)
  have hc2_w : ∀ y ∈ c2', ∀ z ∈ w, ¬ (y = z) := fun y hy z hz hq' =>
    d_cv_w (by simp only [List.mem_append]; exact Or.inl hy) (hq' ▸ hz)
  have hv_w : ∀ y ∈ f :: v'', ∀ z ∈ w, ¬ (y = z) := fun y hy z hz hq' =>
    d_cv_w (by simp only [List.mem_append]; exact Or.inr hy) (hq' ▸ hz)
  -- chain decomposition
  obtain ⟨A, B⟩ := (chain_append h c1 s q s (c2' ++ (f :: v'') ++ w)).1 hc
  have B' : chain h q (c2' ++ f :: (v'' ++ w)) s := by
    have e : c2' ++ (f :: v'') ++ w = c2' ++ f :: (v'' ++ w) := by simp
    rwa [e] at B
  obtain ⟨Bq, Bf⟩ := (chain_append h c2' q f s (v'' ++ w)).1 B'
  have Bv : chain h f v'' (headA w s) := chain_take h f s v'' w Bf
  have hpprev : (h q).prev = lastA s c1 := chain_prev_of h s q c1 A
  have hfprev : (h f).prev = lastA q c2' := chain_prev_of h q f c2' Bq
  have hlprev : (h (headA w s)).prev = lastA f v'' := chain_mid_prev h f s v'' w Bf
  have hqmem : q ∈ s :: (c1 ++ q :: (c2' ++ (f :: v'') ++ w)) :=
    List.mem_cons_of_mem s hqE
  have hrtp : (h ((h q).next)).prev = q :=
    ring_next_prev h s (c1 ++ q :: (c2' ++ (f :: v'') ++ w)) hc q hqmem
  have hpfn : (h (lastA q c2')).next = f := by
    have := ring_prev_next h s (c1 ++ q :: (c2' ++ (f :: v'') ++ w)) hc f
      (List.mem_cons_of_mem s (hvE f (by simp)))
    rwa [hfprev] at this
  have hlmem : headA w s ∈ s :: (c1 ++ q :: (c2' ++ (f :: v'') ++ w)) := by
    cases w with
    | nil => simp
    | cons l0 w' => exact List.mem_cons_of_mem s (hwE l0 (by simp))
  have hpln : (h (lastA f v'')).next = headA w s := by
    have := ring_prev_next h s (c1 ++ q :: (c2' ++ (f :: v'') ++ w)) hc _ hlmem
    rwa [hlprev] at this
  have hfl : ¬ (f = headA w s) := by
    cases w with
    | nil => exact hv_s f (by simp)
    | cons l0 w' => simpa using hv_w f (by simp) l0 (by simp)
  have hpl' : ¬ (q = headA w s) := by
    cases w with
    | nil => simpa using hq_s
    | cons l0 w' => simpa using hq_w l0 (by simp)
  have hfp : ¬ (f = q) := fun hq' => hq_v f (by simp) hq'.symm
  have hmem_pp := lastA_mem s c1
  have hmem_pf := lastA_mem q c2'
  have hmem_pl := lastA_mem f v''
  have hnorm := splice_norm h q (lastA s c1) f (lastA q c2')
    (lastA f v'') (headA w s) hrtp hlprev hpln hfprev hpfn hpprev hfl hpl' hfp
  rw [hnorm]
  have hpf_pp : ¬ (lastA q c2' = lastA s c1) := by
    intro hq'
    rcases List.mem_cons.1 hmem_pf with hc1' | hc1'
    · rw [hc1'] at hq'
      rcases List.mem_cons.1 hmem_pp with hc2'' | hc2''
      · exact hq_s (hq'.trans hc2'')
      · exact hc1_q _ hc2'' hq'.symm
    · rcases List.mem_cons.1 hmem_pp with hc2'' | hc2''
      · exact hc2_s _ hc1' (hq'.trans hc2'')
      · exact hc1_c2 _ hc2'' _ hc1' hq'.symm
  have hpl_pp : ¬ (lastA f v'' = lastA s c1) := by
    intro hq'
    rcases List.mem_cons.1 hmem_pp with hc2'' | hc2''
    · exact hv_s _ hmem_pl (hq'.trans hc2'')
    · exact hc1_v _ hc2'' _ hmem_pl hq'.symm
  have hpf_pl : ¬ (lastA q c2' = lastA f v'') := by
    intro hq'
    rcases List.mem_cons.1 hmem_pf with hc1' | hc1'
    · rw [hc1'] at hq'
      exact hq_v _ hmem_pl hq'
    · exact hc2_v _ hc1' _ hmem_pl hq'
  refine ⟨⟨?_, ?_, ?_⟩, ?_⟩
  · intro hmem
    refine h0 ?_
    simp only [List.mem_cons, List.mem_append] at hmem ⊢
    tauto
  · have hperm : List.Perm (c1 ++ (f :: v'') ++ q :: (c2' ++ w))
        (c1 ++ q :: (c2' ++ (f :: v'') ++ w)) := by
      have e1 : c1 ++ (f :: v'') ++ q :: (c2' ++ w)
          = c1 ++ (((f :: v'') ++ (q :: c2')) ++ w) := by simp
      have e2 : c1 ++ q :: (c2' ++ (f :: v'') ++ w)
          = c1 ++ (((q :: c2') ++ (f :: v'')) ++ w) := by simp
      rw [e1, e2]
      exact ((List.perm_append_comm.append_right w).append_left c1)
    rw [(hperm.cons s).nodup_iff]
    exact hnd
  · rw [show c1 ++ (f :: v'') ++ q :: (c2' ++ w)
        = c1 ++ f :: (v'' ++ q :: (c2' ++ w)) by simp]
    rw [chain_append]
    constructor
    · -- chain from s through c1 to f
      refine chain_retarget h _ s c1 q f A
        (List.nodup_cons.2 ⟨fun hq' => hse (hc1E s hq'), ndc1⟩) ?_ ?_ ?_ ?_
      · rw [spliceN_next]
        simp
      · rw [spliceN_prev]
        simp [hfp]
      · intro y hy hyne
        rw [spliceN_next]
        have e1 : ¬ (y = lastA f v'') := by
          rcases List.mem_cons.1 hy with rfl | hy'
          · exact fun hq' => hv_s _ hmem_pl hq'.symm
          · exact fun hq' => hc1_v _ hy' _ hmem_pl hq'
        have e2 : ¬ (y = lastA q c2') := by
          rcases List.mem_cons.1 hy with rfl | hy'
          · rcases List.mem_cons.1 hmem_pf with hc1' | hc1'
            · exact fun hq' => hq_s (hq'.trans hc1').symm
            · exact fun hq' => hc2_s _ hc1' hq'.symm
          · rcases List.mem_cons.1 hmem_pf with hc1' | hc1'
            · exact fun hq' => hc1_q _ hy' (hq'.trans hc1')
            · exact fun hq' => hc1_c2 _ hy' _ hc1' hq'
        simp [hyne, e1, e2]
      · intro y hy
        rw [spliceN_prev]
        have e1 : ¬ (y = q) := hc1_q y hy
        have e2 : ¬ (y = f) := hc1_v y hy f (by simp)
        have e3 : ¬ (y = headA w s) := by
          cases w with
          | nil => exact fun hq' => hc1_s y hy (by simpa using hq')
          | cons l0 w' => exact fun hq' => hc1_w y hy l0 (by simp) (by simpa using hq')
        simp [e1, e2, e3]
    · rw [chain_append]
      constructor
      · -- chain from f through the range to q
        refine chain_retarget h _ f v'' (headA w s) q Bv ndv ?_ ?_ ?_ ?_
        · rw [spliceN_next]
          simp [hpl_pp]
        · rw [spliceN_prev]
          simp
        · intro y hy hyne
          rw [spliceN_next]
          have hyv : y ∈ f :: v'' := hy
          have e1 : ¬ (y = lastA s c1) := by
            rcases List.mem_cons.1 hmem_pp with hc2'' | hc2''
            · exact fun hq' => hv_s _ hyv (hq'.trans hc2'')
            · exact fun hq' => hc1_v _ hc2'' _ hyv hq'.symm
          have e2 : ¬ (y = lastA q c2') := by
            rcases List.mem_cons.1 hmem_pf with hc1' | hc1'
            · exact fun hq' => hq_v _ hyv (hq'.trans hc1').symm
            · exact fun hq' => hc2_v _ hc1' _ hyv hq'.symm
          simp [hyne, e1, e2]
        · intro y hy
          rw [spliceN_prev]
          have hyv : y ∈ f :: v'' := List.mem_cons_of_mem f hy
          have e1 : ¬ (y = q) := fun hq' => hq_v y hyv hq'.symm
          have e2 : ¬ (y = f) := fun hq' => (List.nodup_cons.1 ndv).1 (hq' ▸ hy)
          have e3 : ¬ (y = headA w s) := by
            cases w with
            | nil => exact fun hq' => hv_s y hyv (by simpa using hq')
            | cons l0 w' => exact fun hq' => hv_w y hyv l0 (by simp) (by simpa using hq')
          simp [e1, e2, e3]
      · -- chain from q through c2' and w back to s
        cases w with
        | nil =>
            rw [show c2' ++ ([] : List Nat) = c2' by simp]
            refine chain_retarget h _ q c2' f s Bq
              (List.nodup_cons.2 ⟨fun hq' => hq_c2 q hq' rfl, ndc2⟩) ?_ ?_ ?_ ?_
            · rw [spliceN_next]
              simp [hpf_pp, hpf_pl]
            · rw [spliceN_prev]
              have e1 : ¬ (s = q) := fun hq' => hq_s hq'.symm
              have e2 : ¬ (s = f) := fun hq' => hv_s f (by simp) hq'.symm
              simp [e1, e2]
            · intro y hy hyne
              rw [spliceN_next]
              have e1 : ¬ (y = lastA s c1) := by
                rcases List.mem_cons.1 hy with rfl | hy'
                · rcases List.mem_cons.1 hmem_pp with hc2'' | hc2''
                  · exact fun hq' => hq_s (hq'.trans hc2'')
                  · exact fun hq' => hc1_q _ hc2'' hq'.symm
                · rcases List.mem_cons.1 hmem_pp with hc2'' | hc2''
                  · exact fun hq' => hc2_s _ hy' (hq'.trans hc2'')
                  · exact fun hq' => hc1_c2 _ hc2'' _ hy' hq'.symm
              have e2 : ¬ (y = lastA f v'') := by
                rcases List.mem_cons.1 hy with rfl | hy'
                · exact fun hq' => hq_v _ hmem_pl hq'
                · exact fun hq' => hc2_v _ hy' _ hmem_pl hq'
              simp [hyne, e1, e2]
            · intro y hy
              rw [spliceN_prev]
              have e1 : ¬ (y = q) := fun hq' => hq_c2 y hy hq'.symm
              have e2 : ¬ (y = f) := hc2_v y hy f (by simp)
              have e3 : ¬ (y = s) := hc2_s y hy
              simp [e1, e2, e3]
        | cons l0 w' =>
            rw [chain_append]
            constructor
            · refine chain_retarget h _ q c2' f l0 Bq
                (List.nodup_cons.2 ⟨fun hq' => hq_c2 q hq' rfl, ndc2⟩) ?_ ?_ ?_ ?_
              · rw [spliceN_next]
                simp [hpf_pp, hpf_pl]
              · rw [spliceN_prev]
                have e1 : ¬ (l0 = q) := fun hq' => hq_w l0 (by simp) hq'.symm
                have e2 : ¬ (l0 = f) := fun hq' => hv_w f (by simp) l0 (by simp) hq'.symm
                simp [e1, e2]
              · intro y hy hyne
                rw [spliceN_next]
                have e1 : ¬ (y = lastA s c1) := by
                  rcases List.mem_cons.1 hy with rfl | hy'
                  · rcases List.mem_cons.1 hmem_pp with hc2'' | hc2''
                    · exact fun hq' => hq_s (hq'.trans hc2'')
                    · exact fun hq' => hc1_q _ hc2'' hq'.symm
                  · rcases List.mem_cons.1 hmem_pp with hc2'' | hc2''
                    · exact fun hq' => hc2_s _ hy' (hq'.trans hc2'')
                    · exact fun hq' => hc1_c2 _ hc2'' _ hy' hq'.symm
                have e2 : ¬ (y = lastA f v'') := by
                  rcases List.mem_cons.1 hy with rfl | hy'
                  · exact fun hq' => hq_v _ hmem_pl hq'
                  · exact fun hq' => hc2_v _ hy' _ hmem_pl hq'
                simp [hyne, e1, e2]
              · intro y hy
                rw [spliceN_prev]
                have e1 : ¬ (y = q) := fun hq' => hq_c2 y hy hq'.symm
                have e2 : ¬ (y = f) := hc2_v y hy f (by simp)
                have e3 : ¬ (y = l0) := hc2_w y hy l0 (by simp)
                simp [e1, e2, e3]
            · have Bw : chain h l0 w' s := by
                have e : v'' ++ l0 :: w' = v'' ++ l0 :: w' := rfl
                exact ((chain_append h v'' f l0 s w').1 Bf).2
              refine chain_congr h _ l0 s w' ?_ ?_ ?_ ?_ Bw
              · rw [spliceN_next]
                have e1 : ¬ (l0 = lastA s c1) := by
                  rcases List.mem_cons.1 hmem_pp with hc2'' | hc2''
                  · exact fun hq' => hw_s l0 (by simp) (hq'.trans hc2'')
                  · exact fun hq' => hc1_w _ hc2'' l0 (by simp) hq'.symm
                have e2 : ¬ (l0 = lastA f v'') := fun hq' =>
                  hv_w _ hmem_pl l0 (by simp) hq'.symm
                have e3 : ¬ (l0 = lastA q c2') := by
                  rcases List.mem_cons.1 hmem_pf with hc1' | hc1'
                  · exact fun hq' => hq_w l0 (by simp) (hq'.trans hc1').symm
                  · exact fun hq' => hc2_w _ hc1' l0 (by simp) hq'.symm
                simp [e1, e2, e3]
              · rw [spliceN_prev]
                have e1 : ¬ (s = q) := fun hq' => hq_s hq'.symm
                have e2 : ¬ (s = f) := fun hq' => hv_s f (by simp) hq'.symm
                have e3 : ¬ (s = l0) := fun hq' => hw_s l0 (by simp) hq'.symm
                simp [e1, e2, e3]
              · intro y hy
                rw [spliceN_next]
                have hyw : y ∈ l0 :: w' := List.mem_cons_of_mem l0 hy
                have e1 : ¬ (y = lastA s c1) := by
                  rcases List.mem_cons.1 hmem_pp with hc2'' | hc2''
                  · exact fun hq' => hw_s _ hyw (hq'.trans hc2'')
                  · exact fun hq' => hc1_w _ hc2'' _ hyw hq'.symm
                have e2 : ¬ (y = lastA f v'') := fun hq' =>
                  hv_w _ hmem_pl _ hyw hq'.symm
                have e3 : ¬ (y = lastA q c2') := by
                  rcases List.mem_cons.1 hmem_pf with hc1' | hc1'
                  · exact fun hq' => hq_w _ hyw (hq'.trans hc1').symm
                  · exact fun hq' => hc2_w _ hc1' _ hyw hq'.symm
                simp [e1, e2, e3]
              · intro y hy
                rw [spliceN_prev]
                have hyw : y ∈ l0 :: w' := List.mem_cons_of_mem l0 hy
                have e1 : ¬ (y = q) := fun hq' => hq_w _ hyw hq'.symm
                have e2 : ¬ (y = f) := fun hq' => hv_w f (by simp) _ hyw hq'.symm
                have e3 : ¬ (y = l0) := fun hq' => (List.nodup_cons.1 ndw).1 (hq' ▸ hy)
                simp [e1, e2, e3]
  · -- untouched nodes
    intro y hy
    have hyE : ∀ z, z ∈ c1 ++ q :: (c2' ++ (f :: v'') ++ w) → ¬ (y = z) :=
      fun z hz hq' => hy (by
        rw [hq']
        exact List.mem_cons_of_mem s hz)
    have hys : ¬ (y = s) := fun hq' => hy (by simp [hq'])
    have hn1 : ¬ (y = lastA s c1) := by
      rcases List.mem_cons.1 hmem_pp with hc2'' | hc2''
      · exact fun hq' => hys (hq'.trans hc2'')
      · exact hyE _ (hc1E _ hc2'')
    have hn2 : ¬ (y = lastA f v'') := hyE _ (hvE _ hmem_pl)
    have hn3 : ¬ (y = lastA q c2') := by
      rcases List.mem_cons.1 hmem_pf with hc1' | hc1'
      · exact fun hq' => hyE q hqE (hq'.trans hc1')
      · exact hyE _ (hc2E _ hc1')
    have hn4 : ¬ (y = q) := hyE q hqE
    have hn5 : ¬ (y = f) := hyE _ (hvE f (by simp))
    have hn6 : ¬ (y = headA w s) := by
      cases w with
      | nil => exact fun hq' => hys (by simpa using hq')
      | cons l0 w' => exact fun hq' => hyE l0 (hwE l0 (by simp)) (by simpa using hq')
    apply Link.ext2
    · rw [spliceN_prev]
      simp [hn4, hn5, hn6]
    · rw [spliceN_next]
      simp [hn1, hn2, hn3]

/-- `insert` writes only the predecessor of the position, the position node,
and the new element. -/
theorem insert_frame (h : Heap) (s e : Nat) (a b : List Nat)
    (inv : ringInv h s (a ++ b)) (y : Nat)
    (hy : y ∉ s :: (a ++ b)) (hye : y ≠ e) :
    (insert h (headA b s) e).1 y = h y := by
  obtain ⟨h0, hnd, hc⟩ := inv
  have hposmem : headA b s ∈ s :: (a ++ b) := by
    cases b with
    | nil => simp
    | cons z b' =>
        refine List.mem_cons_of_mem s ?_
        simp
  have hrt : (h ((h (headA b s)).next)).prev = headA b s :=
    ring_next_prev h s (a ++ b) hc _ hposmem
  have hpm : (h (headA b s)).prev = lastA s a := chain_mid_prev h s s a b hc
  have hypos : ¬ (y = headA b s) := fun hq => hy (hq ▸ hposmem)
  have hypm : ¬ (y = lastA s a) := by
    intro hq
    rcases List.mem_cons.1 (lastA_mem s a) with hq' | hq'
    · exact hy (by simp [hq.trans hq'])
    · exact hy (by simp [hq ▸ hq'])
  apply Link.ext2 <;>
    simp [insert, hrt, hpm, hypos, hypm, hye]

@[simp] theorem fpL_nil : fpL [] = [] := rfl

@[simp] theorem fpL_cons (p : Nat × List Nat) (ls : List (Nat × List Nat)) :
    fpL (p :: ls) = (p.1 :: p.2) ++ fpL ls := rfl

theorem fpL_perm (ls ls' : List (Nat × List Nat)) (hp : List.Perm ls ls') :
    List.Perm (fpL ls) (fpL ls') :=
  List.Perm.flatten (List.Perm.map _ hp)

theorem WF_perm (h : Heap) (ls ls' : List (Nat × List Nat))
    (hwf : WF ⟨h, ls⟩) (hp : List.Perm ls ls') : WF ⟨h, ls'⟩ := by
  obtain ⟨h0, hnd, hch⟩ := hwf
  have hfp := fpL_perm ls ls' hp
  exact ⟨fun hm => h0 (hfp.mem_iff.2 hm), hfp.nodup_iff.1 hnd,
    fun p hm => hch p (hp.mem_iff.2 hm)⟩

/-- Decompose a well-formed state whose first tracked list is `(s, xs)`. -/
theorem WF_parts (h : Heap) (ls : List (Nat × List Nat)) (s : Nat)
    (xs : List Nat) (hwf : WF ⟨h, (s, xs) :: ls⟩) :
    ringInv h s xs ∧ 0 ∉ fpL ls ∧ (fpL ls).Nodup ∧
      (∀ y ∈ s :: xs, y ∉ fpL ls) ∧ ∀ p ∈ ls, chain h p.1 p.2 p.1 := by
  obtain ⟨h0, hnd, hch⟩ := hwf
  rw [fpL_cons] at h0 hnd
  obtain ⟨hnd1, hnd2, hdisj⟩ := List.nodup_append.1 hnd
  refine ⟨⟨fun hm => h0 (List.mem_append.2 (Or.inl hm)), hnd1,
    hch (s, xs) (by simp)⟩,
    fun hm => h0 (List.mem_append.2 (Or.inr hm)), hnd2,
    fun y hy => hdisj hy, fun p hm => hch p (by simp [hm])⟩

/-- Rebuild a well-formed state with a new first tracked list. -/
theorem WF_build (h : Heap) (ls : List (Nat × List Nat)) (s : Nat)
    (xs : List Nat) (inv : ringInv h s xs) (h0 : 0 ∉ fpL ls)
    (hnd : (fpL ls).Nodup) (hdisj : ∀ y ∈ s :: xs, y ∉ fpL ls)
    (hch : ∀ p ∈ ls, chain h p.1 p.2 p.1) : WF ⟨h, (s, xs) :: ls⟩ := by
  obtain ⟨hi0, hind, hic⟩ := inv
  refine ⟨?_, ?_, ?_⟩
  · rw [fpL_cons]
    intro hm
    rcases List.mem_append.1 hm with hm' | hm'
    · exact hi0 hm'
    · exact h0 hm'
  · rw [fpL_cons, List.nodup_append]
    exact ⟨hind, hnd, fun y hy => hdisj y hy⟩
  · intro p hm
    rcases List.mem_cons.1 hm with hq | hq
    · rw [hq]
      exact hic
    · exact hch p hq

/-- Every address of a tracked list lies in the footprint. -/
theorem mem_fpL (ls : List (Nat × List Nat)) (p : Nat × List Nat)
    (hp : p ∈ ls) (y : Nat) (hy : y ∈ p.1 :: p.2) : y ∈ fpL ls := by
  induction ls with
  | nil => cases hp
  | cons q ls ih =>
      rw [fpL_cons]
      rcases List.mem_cons.1 hp with hq | hq
      · exact List.mem_append.2 (Or.inl (hq ▸ hy))
      · exact List.mem_append.2 (Or.inr (ih hq))

/-- A duplicate-free footprint makes each tracked list duplicate-free. -/
theorem fpL_block_nodup (ls : List (Nat × List Nat)) :
    (fpL ls).Nodup → ∀ p ∈ ls, (p.1 :: p.2).Nodup := by
  induction ls with
  | nil =>
      intro _ p hp
      cases hp
  | cons q ls ih =>
      intro hnd p hp
      rw [fpL_cons] at hnd
      obtain ⟨hnd1, hnd2, -⟩ := List.nodup_append.1 hnd
      rcases List.mem_cons.1 hp with hq | hq
      · exact hq ▸ hnd1
      · exact ih hnd2 p hq

/-- A tracked list of a well-formed state, reconstructed as a full ring
invariant. -/
theorem WF_ring (h : Heap) (ls : List (Nat × List Nat))
    (hwf : WF ⟨h, ls⟩) (p : Nat × List Nat) (hp : p ∈ ls) :
    ringInv h p.1 p.2 := by
  obtain ⟨h0, hnd, hch⟩ := hwf
  exact ⟨fun hm => h0 (mem_fpL ls p hp 0 hm),
    fpL_block_nodup ls hnd p hp, hch p hp⟩

/-- In a duplicate-free ring, an address in the middle segment does not also
occur in the rest of the ring. -/
theorem nodup_mid_not_mem (s : Nat) (u V w : List Nat)
    (hnd : (s :: (u ++ V ++ w)).Nodup) (y : Nat) (hy : y ∈ V) :
    y ∉ s :: (u ++ w) := by
  obtain ⟨hs, hnd'⟩ := List.nodup_cons.1 hnd
  rw [List.append_assoc] at hnd'
  obtain ⟨-, hndvw, hduvw⟩ := List.nodup_append.1 hnd'
  obtain ⟨-, -, hdvw⟩ := List.nodup_append.1 hndvw
  intro hm
  rcases List.mem_cons.1 hm with hq | hq
  · exact hs (by simp [hq ▸ hy])
  · rcases List.mem_append.1 hq with hq' | hq'
    · exact hduvw hq' (List.mem_append.2 (Or.inl hy))
    · exact hdvw hy hq'

/-- Every reachable global state is well-formed: each tracked list is a
consistent doubly-linked ring on pairwise-disjoint non-null addresses. -/
theorem Reach_WF (g : GS) (hr : Reach g) : WF g := by
  induction hr with
  | start h => exact ⟨by simp, by simp, by simp⟩
  | permute h ls ls' hr hp ih => exact WF_perm h ls ls' ih hp
  | newlist h ls s hr hs hfresh ih =>
      obtain ⟨h0, hnd, hch⟩ := ih
      refine WF_build (mkList h s) ls s [] (mkList_ring h s hs) h0 hnd ?_ ?_
      · intro y hy
        have : y = s := by simpa using hy
        exact this ▸ hfresh
      · intro p hm
        have inv : ringInv h p.1 p.2 := WF_ring h ls ⟨h0, hnd, hch⟩ p hm
        refine (ringInv_congr h (mkList h s) p.1 p.2 ?_ inv).2.2
        intro y hy
        refine mkList_frame h s y ?_
        intro hq
        exact hfresh (hq ▸ mem_fpL ls p hm y hy)
  | pushBack h ls s e xs hr he hfresh ih =>
      obtain ⟨inv, h0, hnd, hdisj, hch⟩ := WF_parts h ls s xs ih
      have hfe : e ∉ s :: xs := fun hm =>
        hfresh (by rw [fpL_cons]; exact List.mem_append.2 (Or.inl hm))
      have hfe' : e ∉ fpL ls := fun hm =>
        hfresh (by rw [fpL_cons]; exact List.mem_append.2 (Or.inr hm))
      refine WF_build _ ls s (xs ++ [e])
        (push_back_ring h s e xs inv hfe he) h0 hnd ?_ ?_
      · intro y hy
        rcases List.mem_cons.1 hy with hq | hq
        · exact hq ▸ hdisj s (by simp)
        · rcases List.mem_append.1 hq with hq' | hq'
          · exact hdisj y (by simp [hq'])
          · have : y = e := by simpa using hq'
            exact this ▸ hfe'
      · intro p hm
        have inv' : ringInv h p.1 p.2 :=
          WF_ring h ((s, xs) :: ls) ih p (by simp [hm])
        refine (ringInv_congr h _ p.1 p.2 ?_ inv').2.2
        intro y hy
        have hyfp : y ∈ fpL ls := mem_fpL ls p hm y hy
        refine push_back_frame h s e xs inv y ?_ ?_
        · intro hq
          exact hdisj y hq hyfp
        · intro hq
          exact hfe' (hq ▸ hyfp)
  | pushFront h ls s e xs hr he hfresh ih =>
      obtain ⟨inv, h0, hnd, hdisj, hch⟩ := WF_parts h ls s xs ih
      have hfe : e ∉ s :: xs := fun hm =>
        hfresh (by rw [fpL_cons]; exact List.mem_append.2 (Or.inl hm))
      have hfe' : e ∉ fpL ls := fun hm =>
        hfresh (by rw [fpL_cons]; exact List.mem_append.2 (Or.inr hm))
      refine WF_build _ ls s (e :: xs)
        (push_front_ring h s e xs inv hfe he) h0 hnd ?_ ?_
      · intro y hy
        rcases List.mem_cons.1 hy with hq | hq
        · exact hq ▸ hdisj s (by simp)
        · rcases List.mem_cons.1 hq with hq' | hq'
          · exact hq' ▸ hfe'
          · exact hdisj y (by simp [hq'])
      · intro p hm
        have inv' : ringInv h p.1 p.2 :=
          WF_ring h ((s, xs) :: ls) ih p (by simp [hm])
        refine (ringInv_congr h _ p.1 p.2 ?_ inv').2.2
        intro y hy
        have hyfp : y ∈ fpL ls := mem_fpL ls p hm y hy
        refine push_front_frame h s e xs inv y ?_ ?_
        · intro hq
          exact hdisj y hq hyfp
        · intro hq
          exact hfe' (hq ▸ hyfp)
  | insertAt h ls s e a b hr he hfresh ih =>
      obtain ⟨inv, h0, hnd, hdisj, hch⟩ := WF_parts h ls s (a ++ b) ih
      have hfe : e ∉ s :: (a ++ b) := fun hm =>
        hfresh (by rw [fpL_cons]; exact List.mem_append.2 (Or.inl hm))
      have hfe' : e ∉ fpL ls := fun hm =>
        hfresh (by rw [fpL_cons]; exact List.mem_append.2 (Or.inr hm))
      refine WF_build _ ls s (a ++ e :: b)
        (insert_ring h s e a b inv hfe he) h0 hnd ?_ ?_
      · intro y hy
        have hy' : y ∈ s :: (a ++ b) ∨ y = e := by
          rcases List.mem_cons.1 hy with hq | hq
          · exact Or.inl (by simp [hq])
          · rcases List.mem_append.1 hq with hq' | hq'
            · exact Or.inl (by simp [hq'])
            · rcases List.mem_cons.1 hq' with hq'' | hq''
              · exact Or.inr hq''
              · exact Or.inl (by simp [hq''])
        rcases hy' with hq | hq
        · exact hdisj y hq
        · exact hq ▸ hfe'
      · intro p hm
        have inv' : ringInv h p.1 p.2 :=
          WF_ring h ((s, a ++ b) :: ls) ih p (by simp [hm])
        refine (ringInv_congr h _ p.1 p.2 ?_ inv').2.2
        intro y hy
        have hyfp : y ∈ fpL ls := mem_fpL ls p hm y hy
        refine insert_frame h s e a b inv y ?_ ?_
        · intro hq
          exact hdisj y hq hyfp
        · intro hq
          exact hfe' (hq ▸ hyfp)
  | eraseAt h ls s x a b hr ih =>
      obtain ⟨inv, h0, hnd, hdisj, hch⟩ := WF_parts h ls s (a ++ x :: b) ih
      refine WF_build _ ls s (a ++ b)
        ((erase_ring h s x a b inv).1) h0 hnd ?_ ?_
      · intro y hy
        have hy' : y ∈ s :: (a ++ x :: b) := by
          rcases List.mem_cons.1 hy with hq | hq
          · simp [hq]
          · rcases List.mem_append.1 hq with hq' | hq'
            · simp [hq']
            · simp [hq']
        exact hdisj y hy'
      · intro p hm
        have inv' : ringInv h p.1 p.2 :=
          WF_ring h ((s, a ++ x :: b) :: ls) ih p (by simp [hm])
        refine (ringInv_congr h _ p.1 p.2 ?_ inv').2.2
        intro y hy
        have hyfp : y ∈ fpL ls := mem_fpL ls p hm y hy
        refine erase_frame h s x a b inv y ?_
        intro hq
        exact hdisj y hq hyfp
  | spliceDistinct h ls s1 s2 f c d u v'' w hr ih =>
      obtain ⟨inv1, h0R, hndR, hdisj1, hchR⟩ :=
        WF_parts h ((s2, u ++ (f :: v'') ++ w) :: ls) s1 (c ++ d) ih
      obtain ⟨inv2, h02, hnd2, hdisj2, hch2⟩ :=
        WF_parts h ls s2 (u ++ (f :: v'') ++ w) ⟨h0R, hndR, hchR⟩
      have hdisj12 : List.Disjoint (s1 :: (c ++ d))
          (s2 :: (u ++ (f :: v'') ++ w)) := by
        intro y hy hy'
        exact hdisj1 y hy
          (by rw [fpL_cons]; exact List.mem_append.2 (Or.inl hy'))
      obtain ⟨r1, r2, hframe⟩ :=
        splice_rings_distinct h s1 s2 f c d u v'' w inv1 inv2 hdisj12
      have hm1 : ∀ y, y ∈ s1 :: (c ++ (f :: v'') ++ d) →
          y ∈ s1 :: (c ++ d) ∨ y ∈ f :: v'' := by
        intro y hy
        simp only [List.mem_cons, List.mem_append] at hy ⊢
        tauto
      have hm2 : ∀ y, y ∈ s2 :: (u ++ w) →
          y ∈ s2 :: (u ++ (f :: v'') ++ w) := by
        intro y hy
        simp only [List.mem_cons, List.mem_append] at hy ⊢
        tauto
      have hmV : ∀ y, y ∈ f :: v'' → y ∈ s2 :: (u ++ (f :: v'') ++ w) := by
        intro y hy
        simp only [List.mem_cons, List.mem_append] at hy ⊢
        tauto
      refine WF_build _ ((s2, u ++ w) :: ls) s1 (c ++ (f :: v'') ++ d)
        r1 ?_ ?_ ?_ ?_
      · rw [fpL_cons]
        intro hm
        rcases List.mem_append.1 hm with hm' | hm'
        · exact inv2.1 (hm2 0 hm')
        · exact h02 hm'
      · rw [fpL_cons, List.nodup_append]
        refine ⟨r2.2.1, hnd2, ?_⟩
        intro y hy
        exact hdisj2 y (hm2 y hy)
      · intro y hy
        rw [fpL_cons]
        rcases hm1 y hy with hq | hq
        · intro hm
          rcases List.mem_append.1 hm with hm' | hm'
          · exact hdisj12 hq (hm2 y hm')
          · exact hdisj1 y hq
              (by rw [fpL_cons]; exact List.mem_append.2 (Or.inr hm'))
        · intro hm
          rcases List.mem_append.1 hm with hm' | hm'
          · exact nodup_mid_not_mem s2 u (f :: v'') w inv2.2.1 y hq hm'
          · exact hdisj2 y (hmV y hq) hm'
      · intro p hm
        rcases List.mem_cons.1 hm with hq | hq
        · rw [hq]
          exact r2.2.2
        · have inv' : ringInv h p.1 p.2 :=
            WF_ring h ls ⟨h02, hnd2, hch2⟩ p hq
          refine (ringInv_congr h _ p.1 p.2 ?_ inv').2.2
          intro y hy
          have hyfp : y ∈ fpL ls := mem_fpL ls p hq y hy
          refine hframe y ?_ ?_
          · intro hq'
            exact hdisj1 y hq'
              (by rw [fpL_cons]; exact List.mem_append.2 (Or.inr hyfp))
          · intro hq'
            exact hdisj2 y hq' hyfp
  | spliceAfter h ls s f u v'' w1 w2 hr ih =>
      obtain ⟨inv, h0, hnd, hdisj, hch⟩ :=
        WF_parts h ls s (u ++ (f :: v'') ++ w1 ++ w2) ih
      obtain ⟨r, hframe⟩ := splice_same_after h s f u v'' w1 w2 inv
      have hmm : ∀ y, y ∈ s :: (u ++ w1 ++ (f :: v'') ++ w2) ↔
          y ∈ s :: (u ++ (f :: v'') ++ w1 ++ w2) := by
        intro y
        simp only [List.mem_cons, List.mem_append]
        tauto
      refine WF_build _ ls s (u ++ w1 ++ (f :: v'') ++ w2) r h0 hnd ?_ ?_
      · intro y hy
        exact hdisj y ((hmm y).1 hy)
      · intro p hm
        have inv' : ringInv h p.1 p.2 :=
          WF_ring h ls ⟨h0, hnd, hch⟩ p hm
        refine (ringInv_congr h _ p.1 p.2 ?_ inv').2.2
        intro y hy
        have hyfp : y ∈ fpL ls := mem_fpL ls p hm y hy
        refine hframe y ?_
        intro hq
        exact hdisj y hq hyfp
  | spliceBefore h ls s f q c1 c2' v'' w hr ih =>
      obtain ⟨inv, h0, hnd, hdisj, hch⟩ :=
        WF_parts h ls s (c1 ++ q :: (c2' ++ (f :: v'') ++ w)) ih
      obtain ⟨r, hframe⟩ := splice_same_before h s f q c1 c2' v'' w inv
      have hmm : ∀ y, y ∈ s :: (c1 ++ (f :: v'') ++ q :: (c2' ++ w)) ↔
          y ∈ s :: (c1 ++ q :: (c2' ++ (f :: v'') ++ w)) := by
        intro y
        simp only [List.mem_cons, List.mem_append]
        tauto
      refine WF_build _ ls s (c1 ++ (f :: v'') ++ q :: (c2' ++ w)) r h0 hnd
        ?_ ?_
      · intro y hy
        exact hdisj y ((hmm y).1 hy)
      · intro p hm
        have inv' : ringInv h p.1 p.2 :=
          WF_ring h ls ⟨h0, hnd, hch⟩ p hm
        refine (ringInv_congr h _ p.1 p.2 ?_ inv').2.2
        intro y hy
        have hyfp : y ∈ fpL ls := mem_fpL ls p hm y hy
        refine hframe y ?_
        intro hq
        exact hdisj y hq hyfp

/-!  The ten claims. -/

/-- C1: for every sequence of push_front/push_back/insert/erase/splice
operations on lists starting empty — with splice's destination position
outside the moved range `[first, last)`, the amendment required by the
counterexample below — every tracked list remains a consistent doubly-linked
ring: it satisfies `ringInv`, forward traversal by `next` from `begin()`
visits exactly its elements in order, and backward traversal by `prev` from
the last element visits them in reverse order. -/
theorem C1_ring_invariant (g : GS) (hr : Reach g) (s : Nat) (xs : List Nat)
    (hmem : (s, xs) ∈ g.lists) :
    ringInv g.heap s xs ∧
    walkNext g.heap s ((g.heap s).next) (xs.length + 1) = xs ∧
    walkPrev g.heap s ((g.heap s).prev) (xs.length + 1) = xs.reverse := by
  have hwf : WF g := Reach_WF g hr
  have inv : ringInv g.heap s xs := WF_ring g.heap g.lists hwf (s, xs) hmem
  exact ⟨inv, ring_walkNext g.heap s xs inv _ (by omega),
    ring_walkPrev g.heap s xs inv _ (by omega)⟩

theorem C1_ring_invariant_witness :
    ringInv r12 1 [2] ∧
    walkNext r12 1 ((r12 1).next) ([2].length + 1) = [2] ∧
    walkPrev r12 1 ((r12 1).prev) ([2].length + 1) = [2].reverse :=
  C1_ring_invariant ⟨r12, [(1, [2])]⟩
    (Reach.pushBack (mkList H0 1) [] 1 2 []
      (Reach.newlist H0 [] 1 (Reach.start H0) (by decide) (by decide))
      (by decide) (by decide))
    1 [2] (by decide)

/-- Refutation of the unamended C1: starting from the empty list with
sentinel `1`, two `push_back` calls produce the valid ring `[2, 3]`; the
spec-permitted call `splice(pos = iterator to 3, same list, first = 2,
last = end())` then leaves the sentinel self-linked and both elements
self-linked, so no consistent ring containing the two still-linked elements
remains and forward traversal visits nothing. -/
theorem C1_ring_invariant_counterexample :
    ringInv r123 1 [2, 3] ∧
    walkNext r123 1 ((r123 1).next) 3 = [2, 3] ∧
    walkNext badSplice 1 ((badSplice 1).next) 3 = [] ∧
    badSplice 2 = ⟨2, 2⟩ ∧ badSplice 3 = ⟨3, 3⟩ ∧
    ¬ ringInv badSplice 1 [2, 3] ∧ ¬ ringInv badSplice 1 [3, 2] := by
  exact ⟨by decide, by decide, by decide, by decide, by decide,
    by decide, by decide⟩

/-- C2: `push_back(x); pop_back()` on a valid ring restores every node other
than `x` — hence `empty()`, `front()` and `back()` — but `x`'s link is left
holding the stale pointers `⟨old last element, sentinel⟩` rather than being
cleared (the amendment required by the counterexample below). -/
theorem C2_round_trip (h : Heap) (s e : Nat) (xs : List Nat)
    (inv : ringInv h s xs) (he : e ∉ s :: xs) :
    (∀ y, y ≠ e → pop_back (push_back h s e) s y = h y) ∧
    emptyq (pop_back (push_back h s e) s) s = emptyq h s ∧
    frontA (pop_back (push_back h s e) s) s = frontA h s ∧
    backA (pop_back (push_back h s e) s) s = backA h s ∧
    pop_back (push_back h s e) s e = ⟨lastA s xs, s⟩ := by
  obtain ⟨hrest, hstale⟩ := push_pop_back h s e xs inv he
  have hse : s ≠ e := by
    intro hq
    exact he (by rw [← hq]; exact List.mem_cons_self s xs)
  refine ⟨hrest, ?_, ?_, ?_, hstale⟩ <;>
    simp [emptyq, frontA, backA, hrest s hse]

theorem C2_round_trip_witness :
    pop_back (push_back r12 1 3) 1 3 = ⟨lastA 1 [2], 1⟩ ∧
    emptyq (pop_back (push_back r12 1 3) 1) 1 = emptyq r12 1 :=
  ⟨(C2_round_trip r12 1 3 [2] (by decide) (by decide)).2.2.2.2,
   (C2_round_trip r12 1 3 [2] (by decide) (by decide)).2.1⟩

/-- Refutation of the unamended C2: on the ring `[2]`, pushing `3` and
popping it back restores the other nodes but leaves node `3` with the stale
link `⟨2, 1⟩` (old last element, sentinel), not the unset `⟨0, 0⟩`. -/
theorem C2_round_trip_counterexample :
    (3 : Nat) ∉ (1 : Nat) :: [2] ∧
    pop_back (push_back r12 1 3) 1 3 = ⟨2, 1⟩ ∧
    pop_back (push_back r12 1 3) 1 3 ≠ ⟨0, 0⟩ := by
  exact ⟨by decide, by decide, by decide⟩

/-- C3: splicing the contiguous range `f :: v''` out of the distinct list
`s2 = u ++ (f :: v'') ++ w` into list `s1 = c ++ d` just before the position
`headA d s1` leaves `s2` with exactly `u ++ w` (order preserved), gives `s1`
exactly `c ++ (f :: v'') ++ d` (the moved elements in original order
immediately before the position), and the element counts change by the
length of the moved range. -/
theorem C3_splice_distinct (h : Heap) (s1 s2 f : Nat) (c d u v'' w : List Nat)
    (inv1 : ringInv h s1 (c ++ d)) (inv2 : ringInv h s2 (u ++ (f :: v'') ++ w))
    (hdisj : List.Disjoint (s1 :: (c ++ d)) (s2 :: (u ++ (f :: v'') ++ w))) :
    ringInv (splice h (headA d s1) f (headA w s2)) s1 (c ++ (f :: v'') ++ d) ∧
    ringInv (splice h (headA d s1) f (headA w s2)) s2 (u ++ w) ∧
    (c ++ (f :: v'') ++ d).length =
      (c ++ d).length + (f :: v'').length ∧
    (u ++ w).length =
      (u ++ (f :: v'') ++ w).length - (f :: v'').length := by
  obtain ⟨r1, r2, -⟩ :=
    splice_rings_distinct h s1 s2 f c d u v'' w inv1 inv2 hdisj
  refine ⟨r1, r2, ?_, ?_⟩ <;> simp <;> omega

theorem C3_splice_distinct_witness :
    ringInv (splice twoRings (headA ([] : List Nat) 1) 5
      (headA ([] : List Nat) 4)) 1 ([2] ++ (5 :: []) ++ []) ∧
    ringInv (splice twoRings (headA ([] : List Nat) 1) 5
      (headA ([] : List Nat) 4)) 4 ([] ++ []) :=
  ⟨(C3_splice_distinct twoRings 1 4 5 [2] [] [] [] [] (by decide) (by decide)
      (by intro y hy hz; fin_cases hy <;> simp_all)).1,
   (C3_splice_distinct twoRings 1 4 5 [2] [] [] [] [] (by decide) (by decide)
      (by intro y hy hz; fin_cases hy <;> simp_all)).2.1⟩

/-- C4: `splice(position, other, first, last)` is a no-op when
`first == last`, and — provided the destination position lies outside the
moved range `[first, last)`, the amendment required by the counterexample
below — moving the non-empty contiguous range `f :: v''` leaves it
immediately before the position in original relative order with every
involved list still a valid ring, in all three configurations: same list
with the position after the range, same list with the position before the
range, and two disjoint lists. -/
theorem C4_splice_positions :
    (∀ (h : Heap) (pos q : Nat), splice h pos q q = h) ∧
    (∀ (h : Heap) (s f : Nat) (u v'' w1 w2 : List Nat),
      ringInv h s (u ++ (f :: v'') ++ w1 ++ w2) →
      ringInv (splice h (headA w2 s) f (headA (w1 ++ w2) s)) s
        (u ++ w1 ++ (f :: v'') ++ w2)) ∧
    (∀ (h : Heap) (s f q : Nat) (c1 c2' v'' w : List Nat),
      ringInv h s (c1 ++ q :: (c2' ++ (f :: v'') ++ w)) →
      ringInv (splice h q f (headA w s)) s
        (c1 ++ (f :: v'') ++ q :: (c2' ++ w))) ∧
    (∀ (h : Heap) (s1 s2 f : Nat) (c d u v'' w : List Nat),
      ringInv h s1 (c ++ d) → ringInv h s2 (u ++ (f :: v'') ++ w) →
      List.Disjoint (s1 :: (c ++ d)) (s2 :: (u ++ (f :: v'') ++ w)) →
      ringInv (splice h (headA d s1) f (headA w s2)) s1
          (c ++ (f :: v'') ++ d) ∧
        ringInv (splice h (headA d s1) f (headA w s2)) s2 (u ++ w)) :=
  ⟨splice_noop,
   fun h s f u v'' w1 w2 inv => (splice_same_after h s f u v'' w1 w2 inv).1,
   fun h s f q c1 c2' v'' w inv =>
     (splice_same_before h s f q c1 c2' v'' w inv).1,
   fun h s1 s2 f c d u v'' w inv1 inv2 hdisj =>
     ⟨(splice_rings_distinct h s1 s2 f c d u v'' w inv1 inv2 hdisj).1,
      (splice_rings_distinct h s1 s2 f c d u v'' w inv1 inv2 hdisj).2.1⟩⟩

/-- Refutation of the unamended C4 on the ring `[2, 3]`: with the position
inside the moved range (`splice(pos = 3, first = 2, last = end())`) the ring
is destroyed — sentinel and both elements end up self-linked — and with
`position == last` (`splice(pos = end(), first = 2, last = end())`) the call
is a no-op even though `first ≠ last`, so "no-op exactly when
`first == last`" also fails. -/
theorem C4_splice_positions_counterexample :
    ringInv r123 1 [2, 3] ∧
    (badSplice 1 = ⟨1, 1⟩ ∧ badSplice 2 = ⟨2, 2⟩ ∧ badSplice 3 = ⟨3, 3⟩) ∧
    (2 : Nat) ≠ 1 ∧ splice r123 1 2 1 = r123 := by
  refine ⟨by decide, ⟨by decide, by decide, by decide⟩, by decide, ?_⟩
  exact splice_norm_poslast r123 2 1 3 1
    (by decide) (by decide) (by decide) (by decide) (by decide) (by decide)

/-- C5: destroying (or explicitly unlinking) the element `x` linked in a
ring removes exactly `x`, keeps the remaining ring valid in order, clears
`x`'s own link, touches no node outside the old ring, and leaves no `next`
or `prev` pointer of the remaining ring referring to `x`; `unlink` is
idempotent and a no-op on an element whose link is unset. -/
theorem C5_destruction_safety (h : Heap) (s x : Nat) (a b : List Nat)
    (inv : ringInv h s (a ++ x :: b)) :
    ringInv (unlink h x) s (a ++ b) ∧
    unlink h x x = ⟨0, 0⟩ ∧
    (∀ y, y ∉ s :: (a ++ x :: b) → unlink h x y = h y) ∧
    (∀ y ∈ s :: (a ++ b),
      (unlink h x y).next ≠ x ∧ (unlink h x y).prev ≠ x) ∧
    unlink (unlink h x) x = unlink h x ∧
    (∀ (h' : Heap) (z : Nat), h' z = ⟨0, 0⟩ → unlink h' z = h') := by
  obtain ⟨r, hself, hframe⟩ := unlink_ring h s x a b inv
  have hxs : ¬ (x = s) := fun hq =>
    (List.nodup_cons.1 inv.2.1).1 (by simp [← hq])
  have hxab : x ∉ a ++ b := by
    have hnd' : (a ++ x :: b).Nodup := (List.nodup_cons.1 inv.2.1).2
    have hmid : (x :: (a ++ b)).Nodup := List.nodup_middle.1 hnd'
    exact (List.nodup_cons.1 hmid).1
  refine ⟨r, hself, hframe, ?_, unlink_idem h x,
    fun h' z hz => unlink_unset h' z hz⟩
  intro y hy
  obtain ⟨-, -, hc⟩ := r
  constructor
  · intro hq
    have hmem := chain_next_mem (unlink h x) s s (a ++ b) hc y hy
    rw [hq] at hmem
    rcases List.mem_append.1 hmem with hm | hm
    · exact hxab hm
    · exact hxs (by simpa using hm)
  · intro hq
    have hmem := chain_prev_mem (unlink h x) s s (a ++ b) hc y hy
    rw [hq] at hmem
    rcases List.mem_append.1 hmem with hm | hm
    · exact hxab hm
    · exact hxs (by simpa using hm)

theorem C5_destruction_safety_witness :
    ringInv (unlink r123 2) 1 ([] ++ [3]) ∧ unlink r123 2 2 = ⟨0, 0⟩ :=
  ⟨(C5_destruction_safety r123 1 2 [] [3] (by decide)).1,
   (C5_destruction_safety r123 1 2 [] [3] (by decide)).2.1⟩

/-- C6: `erase` at the element `x` (a position that is not `end()`) removes
exactly `x` from the ring, repairs `x`'s former neighbours to point at each
other, returns an iterator to the element that followed `x` (the sentinel,
i.e. `end()`, if `x` was last), leaves `x`'s own link unset (the Linked →
Unset transition), and touches no node outside the old ring. -/
theorem C6_erase (h : Heap) (s x : Nat) (a b : List Nat)
    (inv : ringInv h s (a ++ x :: b)) :
    ringInv (erase h x).1 s (a ++ b) ∧
    (erase h x).2 = headA b s ∧
    (erase h x).1 x = ⟨0, 0⟩ ∧
    ((erase h x).1 (headA b s)).prev = lastA s a ∧
    ((erase h x).1 (lastA s a)).next = headA b s ∧
    (∀ y, y ∉ s :: (a ++ x :: b) → (erase h x).1 y = h y) := by
  obtain ⟨r, hret, hx⟩ := erase_ring h s x a b inv
  have hprev : ((erase h x).1 (headA b s)).prev = lastA s a :=
    chain_mid_prev (erase h x).1 s s a b r.2.2
  have hmem : headA b s ∈ s :: (a ++ b) := by
    cases b with
    | nil => simp
    | cons z b' => simp
  have hnext :=
    ring_prev_next (erase h x).1 s (a ++ b) r.2.2 (headA b s) hmem
  rw [hprev] at hnext
  exact ⟨r, hret, hx, hprev, hnext, erase_frame h s x a b inv⟩

theorem C6_erase_witness :
    ringInv (erase r123 2).1 1 ([] ++ [3]) ∧
    (erase r123 2).2 = headA [3] 1 :=
  ⟨(C6_erase r123 1 2 [] [3] (by decide)).1,
   (C6_erase r123 1 2 [] [3] (by decide)).2.1⟩

/-- C7: `insert(position, value)` on a valid ring links the fresh element
immediately before the position (the rest of the sequence unchanged) and
returns an iterator to the inserted element; inserting at `end()` (position
= sentinel) produces exactly the heap `push_back` produces. -/
theorem C7_insert (h : Heap) (s e : Nat) (a b : List Nat)
    (inv : ringInv h s (a ++ b)) (he : e ∉ s :: (a ++ b)) (he0 : e ≠ 0) :
    ringInv (insert h (headA b s) e).1 s (a ++ e :: b) ∧
    (insert h (headA b s) e).2 = e ∧
    (insert h s e).1 = push_back h s e :=
  ⟨insert_ring h s e a b inv he he0, insert_ret h s e a b inv,
   insert_end_heap h s e (a ++ b) inv⟩

theorem C7_insert_witness :
    ringInv (insert r12 (headA ([] : List Nat) 1) 3).1 1 ([2] ++ 3 :: []) ∧
    (insert r12 1 3).1 = push_back r12 1 3 :=
  ⟨(C7_insert r12 1 3 [2] [] (by decide) (by decide) (by decide)).1,
   (C7_insert r12 1 3 [2] [] (by decide) (by decide) (by decide)).2.2⟩

/-- C8: after move assignment (`clear(); swap(node, r.node)`) the target
list owns the source's sentinel and hence exactly the source's elements in
order, and the source is left a valid empty list; likewise after move
construction, where the source receives a fresh self-linked sentinel. -/
theorem C8_move_semantics (h : Heap) (n1 n2 f : Nat) (xs : List Nat)
    (inv1 : ringInv h n1 xs) (hn2 : n2 ≠ 0) (hd2 : n2 ∉ n1 :: xs)
    (hf0 : f ≠ 0) (hdf : f ∉ n1 :: xs) :
    (ringInv (moveAssign h n2 n1).1 n1 xs ∧
     ringInv (moveAssign h n2 n1).1 n2 [] ∧
     emptyq (moveAssign h n2 n1).1 n2 = true ∧
     (moveAssign h n2 n1).2.1 = n1 ∧ (moveAssign h n2 n1).2.2 = n2) ∧
    (ringInv (moveConstruct h n1 f).1 n1 xs ∧
     ringInv (moveConstruct h n1 f).1 f [] ∧
     emptyq (moveConstruct h n1 f).1 f = true ∧
     (moveConstruct h n1 f).2.1 = n1) := by
  obtain ⟨hcl, hclfr⟩ := clear_spec h n2
  have hA1 : ringInv (clear h n2) n1 xs := by
    refine ringInv_congr h _ n1 xs ?_ inv1
    intro y hy
    exact hclfr y (fun hq => hd2 (hq ▸ hy))
  have hA2 : ringInv (clear h n2) n2 [] := by
    refine ⟨by simpa using Ne.symm hn2, by simp, ?_, ?_⟩ <;> simp [hcl]
  have hC1 : ringInv (mkList h f) n1 xs := by
    refine ringInv_congr h _ n1 xs ?_ inv1
    intro y hy
    exact mkList_frame h f y (fun hq => hdf (hq ▸ hy))
  refine ⟨⟨hA1, hA2, ?_, rfl, rfl⟩,
    ⟨hC1, mkList_ring h f hf0, ?_, rfl⟩⟩
  · simp [moveAssign, emptyq, hcl]
  · simp [moveConstruct, emptyq, mkList]

theorem C8_move_semantics_witness :
    ringInv (moveAssign r12 4 1).1 1 [2] ∧
    emptyq (moveAssign r12 4 1).1 4 = true :=
  ⟨(C8_move_semantics r12 1 4 5 [2]
      (by decide) (by decide) (by decide) (by decide) (by decide)).1.1,
   (C8_move_semantics r12 1 4 5 [2]
      (by decide) (by decide) (by decide) (by decide) (by decide)).1.2.2.1⟩

/-- C9: `clear()` empties the list — `empty()` is true and `begin()`, i.e.
the sentinel's `next`, equals `end()` — by writing only the sentinel's own
link; every other node, in particular every element that was linked in the
list, keeps its old (now stale) link values. -/
theorem C9_clear (h : Heap) (s : Nat) :
    emptyq (clear h s) s = true ∧
    frontA (clear h s) s = s ∧
    backA (clear h s) s = s ∧
    clear h s s = ⟨s, s⟩ ∧
    ∀ y, y ≠ s → clear h s y = h y := by
  obtain ⟨h1, h2⟩ := clear_spec h s
  exact ⟨by simp [emptyq, h1], by simp [frontA, h1], by simp [backA, h1],
    h1, h2⟩

/-- C10: `push_back` is `Tag`-qualified and touches no other tag's layer,
but `push_front` and `insert` as written cast the element to
`list_element<>*` and access its members unqualified, so instantiated at a
non-default tag (`t = 1`) they write the element's `default_tag` (layer `0`)
link: a second list using the default tag on the same values would be
corrupted, so the tag-isolation guarantee fails for these two operations. -/
theorem C10_tag_isolation :
    (∀ (h : THeap) (t s e u a : Nat), u ≠ t →
      push_backT h t s e u a = h u a) ∧
    push_frontT TH1 1 1 2 0 2 ≠ TH1 0 2 ∧
    (insertT TH1 1 1 2).1 0 2 ≠ TH1 0 2 := by
  refine ⟨?_, by decide, by decide⟩
  intro h t s e u a hne
  simp [push_backT, THeap.setNextT, THeap.setPrevT, THeap.setT, hne]
